import Mathlib

/-!
Shallow embedding of the polygon triangulator of
src/src/polygon/src/polygon.cpp: a y-monotone decomposition by a forward and
a backward sweep, followed by reflex-chain triangulation of each monotone.

Modelling conventions.  Float coordinates are embedded as rationals.  The
std::list nodes (vertices of the sweep list, active and inactive edges) are
embedded as arena ids (Nat) together with explicit order lists, so that
splice moves reorder the lists without touching identities, exactly as list
iterators survive splicing in the source.  A null iterator (list end()) is
Option.none wherever the source compares against end(), and arena id 0
wherever the source would dereference it (such states do not arise in valid
runs).  Loops are driven by fuel; exhausting fuel yields the outOfFuel
outcome, which no theorem below equates with source behaviour.
-/

namespace ManifoldPoly

/-- 2D point (glm::vec2), with exact rational coordinates standing in for float. -/
structure Vec2 where
  x : ℚ
  y : ℚ
deriving DecidableEq, Repr

/-- Output triangle: the three mesh_idx values of a glm::ivec3. -/
structure Tri where
  a : Int
  b : Int
  c : Int
deriving DecidableEq, Repr

/-- The two exception kinds of the source (geometryErr, topologyErr), plus the
fuel-exhaustion outcome of the embedding. -/
inductive PolyErr
  | geometryErr
  | topologyErr
  | outOfFuel
deriving DecidableEq, Repr

/-- The six sweep-line event types of Monotones::VertType. -/
inductive VertType
  | Start
  | Backward
  | Forward
  | Merge
  | End
  | Skip
deriving DecidableEq, Repr

/-- Modelled from the spec: the orientation predicate CCW(p0,p1,p2,tol) of the
geometry utilities, which are not among the provided sources.  It returns the
sign of the cross product (p1-p0) x (p2-p0), except that it returns 0 whenever
the triangle altitude |cross| / max(|p1-p0|,|p2-p0|) is at most tol; the
comparison is done on squares to stay within exact arithmetic. -/
def CCW (p0 p1 p2 : Vec2) (tol : ℚ) : Int :=
  let v1x := p1.x - p0.x
  let v1y := p1.y - p0.y
  let v2x := p2.x - p0.x
  let v2y := p2.y - p0.y
  let area := v1x * v2y - v1y * v2x
  let base2 := max (v1x * v1x + v1y * v1y) (v2x * v2x + v2y * v2y)
  if area * area ≤ base2 * tol * tol then 0
  else if 0 < area then 1 else -1

/-- Modelled from the spec: kTolerance = 2 ^ (-13), the default relative
tolerance constant of the utilities header, which is not among the provided
sources. -/
def kTolerance : ℚ := 1 / 8192

/-- Pointwise function update on an arena.  Arena stores are total functions;
this is the single mutation primitive of the embedding. -/
def fupd {α : Type} (f : ℕ → α) (i : ℕ) (a : α) : ℕ → α :=
  fun j => if j = i then a else f j

/-- The element following the first occurrence of x in l (std::next of an
iterator inside the list), none when x is last or absent. -/
def nextIn (l : List ℕ) (x : ℕ) : Option ℕ :=
  match l with
  | [] => none
  | a :: rest => if a = x then rest.head? else nextIn rest x

/-- The element preceding the first occurrence of x in l (std::prev), none
when x is first or absent. -/
def prevIn (l : List ℕ) (x : ℕ) : Option ℕ :=
  match l with
  | [] => none
  | a :: rest => if rest.head? = some x then some a else prevIn rest x

/-- Insert x immediately before the element pos (before end when pos is none
or absent), the splice target position of list::insert and list::splice. -/
def insBefore (l : List ℕ) (pos : Option ℕ) (x : ℕ) : List ℕ :=
  match pos with
  | none => l ++ [x]
  | some p =>
    match l with
    | [] => [x]
    | a :: rest => if a = p then x :: a :: rest else a :: insBefore rest (some p) x

/-- Insert x immediately after the first occurrence of p (at the end when p
is absent): list::insert at std::next of an iterator. -/
def insAfter (l : List ℕ) (p : ℕ) (x : ℕ) : List ℕ :=
  match l with
  | [] => [x]
  | a :: rest => if a = p then a :: x :: rest else a :: insAfter rest p x

/-- The vertex record VertAdj.  left and right are the polygon-loop
neighbours (arena ids); edgeL and edgeR point into the edge arena.  index
doubles as the processed state exactly as in the source: negative means
processed. -/
structure VertAdj where
  pos : Vec2
  mesh_idx : Int
  index : Int
  left : ℕ
  right : ℕ
  edgeL : Option ℕ
  edgeR : Option ℕ
deriving DecidableEq, Repr

instance : Inhabited VertAdj := ⟨⟨⟨0, 0⟩, 0, 0, 0, 0, none, none⟩⟩

def VertAdj.Processed (v : VertAdj) : Bool := v.index < 0

def VertAdj.SetProcessed (v : VertAdj) (processed : Bool) : VertAdj :=
  if v.index = -2 then v else { v with index := if processed then -1 else 0 }

def VertAdj.IsPast (v other : VertAdj) (precision : ℚ) : Bool :=
  decide (v.pos.y > other.pos.y + precision)

/-- VertAdj::operator<, the sole comparator of the start pre-sort and of the
nextAttached priority queue: it compares y only. -/
def VertAdj.lt (v other : VertAdj) : Bool := decide (v.pos.y < other.pos.y)

/-- The edge record of an active or retired monotone flank. -/
structure Edge where
  south : ℕ
  linked : Option ℕ
  next : Option ℕ
  forward : Bool
  linked2east : Bool
  flipped : Bool
  eastCertain : Bool
deriving DecidableEq, Repr

instance : Inhabited Edge := ⟨⟨0, none, none, false, false, false, false⟩⟩

/-- Whole-pipeline state: the vertex arena with its sweep-order list
(monotones_), the edge arena with the active and inactive order lists, and
the working precision. -/
structure MState where
  verts : ℕ → VertAdj
  nv : ℕ
  ring : List ℕ
  edges : ℕ → Edge
  ne : ℕ
  active : List ℕ
  inactive : List ℕ
  precision : ℚ

instance : Inhabited MState :=
  ⟨⟨fun _ => default, 0, [], fun _ => default, 0, [], [], 0⟩⟩

def mapV (s : MState) (i : ℕ) (g : VertAdj → VertAdj) : MState :=
  { s with verts := fupd s.verts i (g (s.verts i)) }

def mapE (s : MState) (i : ℕ) (g : Edge → Edge) : MState :=
  { s with edges := fupd s.edges i (g (s.edges i)) }

namespace Monotones

/-- Monotones::Link: doubly link left before right on the polygon loop. -/
def Link (s : MState) (l r : ℕ) : MState :=
  let s1 := mapV s l (fun v => { v with right := r })
  mapV s1 r (fun v => { v with left := l })

/-- Monotones::UpdateEdge: move an edge pair end up to vert. -/
def UpdateEdge (s : MState) (ei vi : ℕ) : MState :=
  let s1 := mapE s ei (fun e => { e with south := vi })
  mapV s1 vi (fun v => { v with edgeL := some ei, edgeR := some ei })

/-- Monotones::LinkEdges: pair two edges as the flanks of one monotone. -/
def LinkEdges (s : MState) (e1 e2 : ℕ) : MState :=
  let s1 := mapE s e1 (fun e => { e with linked := some e2 })
  mapE s1 e2 (fun e => { e with linked := some e1 })

/-- Edge::North: the north end of the edge along the winding direction. -/
def North (s : MState) (ei : ℕ) : ℕ :=
  let e := s.edges ei
  if e.forward then (s.verts e.south).right else (s.verts e.south).left

/-- Edge::EastOf: where vert lies relative to the edge, x-interval fast path
first, then the CCW predicate. -/
def EastOf (s : MState) (ei vi : ℕ) (precision : ℚ) : Int :=
  let e := s.edges ei
  let south := s.verts e.south
  let north := s.verts (North s ei)
  let v := s.verts vi
  if decide (south.pos.x - precision > v.pos.x) &&
     decide (north.pos.x - precision > v.pos.x) then 1
  else if decide (south.pos.x + precision < v.pos.x) &&
          decide (north.pos.x + precision < v.pos.x) then -1
  else CCW south.pos north.pos v.pos precision

/-- VertAdj::IsStart evaluated on the state. -/
def IsStart (s : MState) (vi : ℕ) : Bool :=
  let v := s.verts vi
  let l := s.verts v.left
  let r := s.verts v.right
  (decide (l.pos.y ≥ v.pos.y) && decide (r.pos.y > v.pos.y)) ||
  (decide (l.pos.y = v.pos.y) && decide (r.pos.y = v.pos.y) &&
   decide (l.pos.x ≤ v.pos.x) && decide (r.pos.x < v.pos.x))

end Monotones

/-- State of the reflex-chain triangulator.  The chain is a stack whose top
(the vector back of the source) is the list head. -/
structure TriState where
  reflex_chain : List ℕ
  other_side : ℕ
  onRight : Bool
  triangles_output : ℕ
deriving DecidableEq, Repr

namespace Triangulator

/-- Triangulator constructor: seed the chain with the monotone start vertex.
The source leaves onRight uninitialised until the second vertex arrives; the
embedding starts it at false, which is never read before being set. -/
def init (vert : ℕ) : TriState := ⟨[vert], vert, false, 0⟩

/-- Triangulator::AddTriangle: emit (v0, v1, v2), swapping v1 and v2 when the
chain is not on the right. -/
def AddTriangle (onRight : Bool) (m0 m1 m2 : Int) : Tri :=
  if onRight then ⟨m0, m1, m2⟩ else ⟨m0, m2, m1⟩

/-- The same-chain while loop of Triangulator::ProcessVert: starting from
v_top with the rest of the chain below it, emit (vi, vj, v_top) while the CCW
test keeps the chain reflex, popping as it goes.  Returns the final v_top,
the chain below it, and the emitted id triples in emission order. -/
def sameLoop (ccw : ℕ → ℕ → ℕ → Int) (dir : Int) (vi : ℕ) :
    ℕ → List ℕ → ℕ × List ℕ × List (ℕ × ℕ × ℕ)
  | vtop, [] => (vtop, [], [])
  | vtop, vj :: rest =>
    let c := ccw vi vj vtop
    if c = dir ∨ c = 0 then
      let r := sameLoop ccw dir vi vj rest
      (r.1, r.2.1, (vi, vj, vtop) :: r.2.2)
    else (vtop, vj :: rest, [])

/-- The chain-emptying fan of the side-switch branch: emit (vi, v_last, vj)
for each vj popped off the chain. -/
def fanLoop (vi : ℕ) : ℕ → List ℕ → List (ℕ × ℕ × ℕ)
  | _, [] => []
  | vlast, vj :: rest => (vi, vlast, vj) :: fanLoop vi vj rest

/-- Triangulator::ProcessVert.  ccw is the CCW oracle on vertex ids and mesh
maps ids to mesh_idx values; the pipeline instantiates both from the state. -/
def ProcessVert (ccw : ℕ → ℕ → ℕ → Int) (mesh : ℕ → Int) (st : TriState)
    (vi : ℕ) (onRight last : Bool) : TriState × List Tri :=
  match st.reflex_chain with
  | [] => ({ st with reflex_chain := [vi], onRight := onRight }, [])
  | [v1] => ({ st with reflex_chain := [vi, v1], onRight := onRight }, [])
  | vtop :: vj :: rest =>
    if st.onRight = onRight ∧ last = false then
      let dir : Int := if st.onRight then 1 else -1
      let r := sameLoop ccw dir vi vtop (vj :: rest)
      let tris := r.2.2.map (fun t => AddTriangle st.onRight (mesh t.1) (mesh t.2.1) (mesh t.2.2))
      ({ st with reflex_chain := vi :: r.1 :: r.2.1,
                 triangles_output := st.triangles_output + tris.length }, tris)
    else
      let onR := !st.onRight
      let raw := fanLoop vi vtop (vj :: rest)
      let tris := raw.map (fun t => AddTriangle onR (mesh t.1) (mesh t.2.1) (mesh t.2.2))
      ({ reflex_chain := [vi, vtop], other_side := vtop, onRight := onR,
         triangles_output := st.triangles_output + tris.length }, tris)

/-- A complete triangulator run as driven by Monotones::Triangulate: the
start vertex seeds the chain, the listed vertices are processed with
last = false, and the final vertex is processed with last = true. -/
def run (ccw : ℕ → ℕ → ℕ → Int) (mesh : ℕ → Int) (v0 : ℕ)
    (calls : List (ℕ × Bool)) (vf : ℕ) (rf : Bool) : TriState :=
  let st := calls.foldl (fun st c => (ProcessVert ccw mesh st c.1 c.2 false).1) (init v0)
  (ProcessVert ccw mesh st vf rf true).1

end Triangulator

namespace Monotones

/-- The skip test of the one-sided Backward case: vert is not past its
processed right neighbour, the north end of the forward edge east of the
chain is not past vert, vert is past that edge's south, and vert lies
strictly east of that north end beyond precision. -/
def bwdSkipTest (s : MState) (vi : ℕ) : Bool :=
  let v := s.verts vi
  let bwdEdge := (s.verts v.right).edgeL.getD 0
  let fS := (s.edges ((nextIn s.active bwdEdge).getD 0)).south
  !(s.verts vi).IsPast (s.verts v.right) s.precision &&
  !(s.verts (s.verts fS).right).IsPast (s.verts vi) s.precision &&
  (s.verts vi).IsPast (s.verts fS) s.precision &&
  decide ((s.verts vi).pos.x > (s.verts (s.verts fS).right).pos.x + s.precision)

/-- The skip test of the one-sided Forward case, mirror image of
bwdSkipTest. -/
def fwdSkipTest (s : MState) (vi : ℕ) : Bool :=
  let v := s.verts vi
  let fwdEdge := (s.verts v.left).edgeR.getD 0
  let bS := (s.edges ((prevIn s.active fwdEdge).getD 0)).south
  !(s.verts vi).IsPast (s.verts v.left) s.precision &&
  !(s.verts (s.verts bS).left).IsPast (s.verts vi) s.precision &&
  (s.verts vi).IsPast (s.verts bS) s.precision &&
  decide ((s.verts vi).pos.x < (s.verts (s.verts bS).left).pos.x - s.precision)

/-- Monotones::ProcessVert, the classifier shared by both sweeps.  Returns
the updated state and the vertex type; state changes happen only on the
non-Skip paths, exactly as in the source. -/
def ProcessVertType (s : MState) (vi : ℕ) : MState × VertType :=
  let v := s.verts vi
  if (s.verts v.right).Processed then
    if (s.verts v.left).Processed then
      let er := (s.verts v.right).edgeL.getD 0
      let el := (s.verts v.left).edgeR.getD 0
      if nextIn s.active er = some el ∨ nextIn s.active el = some er then
        let s1 := mapE s er (fun e => { e with south := vi })
        let s2 := mapE s1 el (fun e => { e with south := vi })
        let s3 := mapV s2 vi (fun w => { w with edgeR := some er, edgeL := some el })
        let s4 := LinkEdges s3 ((s3.edges el).linked.getD 0) ((s3.edges er).linked.getD 0)
        if nextIn s4.active er = some el then (s4, .End) else (s4, .Merge)
      else (s, .Skip)
    else
      if bwdSkipTest s vi then (s, .Skip)
      else (UpdateEdge s ((s.verts v.right).edgeL.getD 0) vi, .Backward)
  else
    if (s.verts v.left).Processed then
      if fwdSkipTest s vi then (s, .Skip)
      else (UpdateEdge s ((s.verts v.left).edgeR.getD 0) vi, .Forward)
    else (s, .Start)

/-- Monotones::RemovePair: retire westEdge and its immediate east neighbour
to the inactive list, recording on both the edge they were next to. -/
def RemovePair (s : MState) (westEdge : ℕ) : MState :=
  let eastEdge := (nextIn s.active westEdge).getD 0
  let nextEast := nextIn s.active eastEdge
  let s1 := mapE s westEdge (fun e => { e with next := nextEast })
  let s2 := mapE s1 eastEdge (fun e => { e with next := nextEast })
  { s2 with active := (s2.active.erase westEdge).erase eastEdge,
            inactive := s2.inactive ++ [westEdge, eastEdge] }

/-- The insertion-point scan of PlaceStart: the number of leading active
edges with EastOf(vert, 0) at most 0. -/
def findEast (s : MState) (vi : ℕ) : List ℕ → ℕ
  | [] => 0
  | e :: rest => if EastOf s e vi 0 ≤ 0 then findEast s vi rest + 1 else 0

/-- Monotones::PlaceStart: resolve hole orientation against the insertion
slot, shifting or skipping on conflicts, then insert the new west and east
edges and cross-link them. -/
def PlaceStart (s : MState) (vi : ℕ) : MState × VertType :=
  let v := s.verts vi
  let k0 := findEast s vi s.active
  let len := s.active.length
  let isHole0 := decide (CCW (s.verts v.left).pos v.pos (s.verts v.right).pos 0 < 0)
  let holeCertain :=
    decide (CCW (s.verts v.left).pos v.pos (s.verts v.right).pos s.precision ≠ 0)
  let shouldBeStart := decide (k0 = len) || !(s.edges (s.active.getD k0 0)).forward
  let resolved : Option (Bool × ℕ) :=
    if isHole0 = shouldBeStart then
      if !holeCertain then some (!isHole0, k0)
      else if decide (k0 < len) &&
              decide (EastOf s (s.active.getD k0 0) vi s.precision ≤ 0) then
        some (isHole0, k0 + 1)
      else if decide (0 < k0) &&
              decide (EastOf s (s.active.getD (k0 - 1) 0) vi s.precision ≥ 0) then
        some (isHole0, k0 - 1)
      else none
    else some (isHole0, k0)
  match resolved with
  | none => (s, .Skip)
  | some (isHole, k) =>
    let eid := s.ne
    let wid := s.ne + 1
    let certE := decide (k = s.active.length) ||
      decide (0 < EastOf s (s.active.getD k 0) vi s.precision)
    let eE : Edge := ⟨vi, none, none, !isHole, false, false, certE⟩
    let wE : Edge := ⟨vi, none, none, isHole, true, false, holeCertain⟩
    let s1 := { s with edges := fupd (fupd s.edges eid eE) wid wE,
                       ne := s.ne + 2,
                       active := s.active.take k ++ [wid, eid] ++ s.active.drop k }
    let s2 := mapV s1 vi (fun w => { w with
      edgeR := some (if isHole then wid else eid),
      edgeL := some (if isHole then eid else wid) })
    (LinkEdges s2 eid wid, .Start)

/-- OVERLAP_ASSERT: ok false means the condition held and the sweep goes on;
on a failed condition, strict mode throws geometryErr and processOverlaps
mode makes the sweep return the soft-fail sentinel true. -/
def overlapAssert (processOverlaps condition : Bool) : Except PolyErr Bool :=
  if condition then .ok false
  else if processOverlaps then .ok true
  else .error .geometryErr

/-- Top of the nextAttached priority queue.  The comparator of the source
orders by y only, so the order among equal keys is unspecified there; the
embedding takes the earliest-queued vertex of minimal y. -/
def qTop (verts : ℕ → VertAdj) : List ℕ → Option ℕ
  | [] => none
  | v :: rest =>
    match qTop verts rest with
    | none => some v
    | some w => if (verts w).pos.y < (verts v).pos.y then some w else some v

def insertAsc (verts : ℕ → VertAdj) (x : ℕ) : List ℕ → List ℕ
  | [] => [x]
  | a :: rest =>
    if (verts x).pos.y < (verts a).pos.y then x :: a :: rest
    else a :: insertAsc verts x rest

/-- The pre-sort of start candidates.  The source sorts the vector by
descending y (unstable, so the order among equal keys is unspecified) and
consumes from the back; the embedding keeps the vector back at the list
head, i.e. the head is the lowest-y candidate, consumed first. -/
def sortYAsc (verts : ℕ → VertAdj) : List ℕ → List ℕ
  | [] => []
  | a :: rest => insertAsc verts a (sortYAsc verts rest)

/-- Walk backwards from the cursor position (none is end()): the element
before cursor in the list. -/
def ringPrev (l : List ℕ) (cursor : Option ℕ) : Option ℕ :=
  match cursor with
  | none => l.getLast?
  | some x => prevIn l x

/-- The main loop of Monotones::SweepForward: queue state is
(nextAttached, starts with back at head, skipped with back at head,
insertAt cursor with none for end()). -/
def sweepFwdLoop (po : Bool) : ℕ → MState → List ℕ → List ℕ → List ℕ → Option ℕ →
    Except PolyErr (MState × Bool)
  | 0, _, _, _, _, _ => .error .outOfFuel
  | fuel + 1, s, q, startsR, skipped, insertAt =>
    match insertAt with
    | none => .ok (s, false)
    | some ia =>
      let choice : ℕ × List ℕ × List ℕ × Option ℕ :=
        match qTop s.verts q, startsR with
        | some t, [] => (t, q.erase t, [], some ia)
        | some t, sb :: rest =>
          if !(s.verts t).IsPast (s.verts sb) s.precision then
            (t, q.erase t, sb :: rest, some ia)
          else (sb, q, rest, some ia)
        | none, sb :: rest => (sb, q, rest, some ia)
        | none, [] => (ia, q, [], nextIn s.ring ia)
      let vert := choice.1
      let q1 := choice.2.1
      let st1 := choice.2.2.1
      let ia1 := choice.2.2.2
      if (s.verts vert).Processed then sweepFwdLoop po fuel s q1 st1 skipped ia1
      else
        match overlapAssert po (skipped.isEmpty ||
            !(s.verts vert).IsPast (s.verts (skipped.headD 0)) s.precision) with
        | .error e => .error e
        | .ok true => .ok (s, true)
        | .ok false =>
          let r0 := ProcessVertType s vert
          let r1 := if r0.2 = .Start then PlaceStart r0.1 vert else r0
          let s3 := r1.1
          let ty := r1.2
          if ty = .Skip then
            match overlapAssert po
                (match ia1 with
                 | some j => (nextIn s3.ring j).isSome
                 | none => false) with
            | .error e => .error e
            | .ok true => .ok (s3, true)
            | .ok false =>
              match overlapAssert po (!q1.isEmpty || !st1.isEmpty) with
              | .error e => .error e
              | .ok true => .ok (s3, true)
              | .ok false => sweepFwdLoop po fuel s3 q1 st1 (vert :: skipped) ia1
          else
            let rs := if ia1 = some vert then (s3.ring, nextIn s3.ring vert)
                      else (insBefore (s3.ring.erase vert) ia1 vert, ia1)
            let s4 := { s3 with ring := rs.1 }
            let ia2 := rs.2
            let s5q : MState × List ℕ :=
              match ty with
              | .Backward => (s4, q1 ++ [(s4.verts vert).left])
              | .Forward => (s4, q1 ++ [(s4.verts vert).right])
              | .Start => (s4, q1 ++ [(s4.verts vert).left, (s4.verts vert).right])
              | .Merge => (RemovePair s4 ((s4.verts vert).edgeL.getD 0), q1)
              | .End => (RemovePair s4 ((s4.verts vert).edgeR.getD 0), q1)
              | .Skip => (s4, q1)
            let s6 := mapV s5q.1 vert (fun w => w.SetProcessed true)
            sweepFwdLoop po fuel s6 s5q.2 (skipped.reverse ++ st1) [] ia2

/-- Monotones::SweepForward: filter the start candidates in ring order,
pre-sort them, and run the main loop from the beginning of the ring. -/
def SweepForward (s : MState) (po : Bool) (fuel : ℕ) : Except PolyErr (MState × Bool) :=
  sweepFwdLoop po fuel s []
    (sortYAsc s.verts (s.ring.filter fun v => IsStart s v)) [] s.ring.head?

/-- Monotones::SplitVerts: duplicate north and south (fresh ids nv and
nv + 1), re-link the loop so one polygon runs through the duplicates, wire
the new diagonal, and return the north-east duplicate.  The operations run
in source order, so reads after earlier links see the updated loop. -/
def SplitVerts (s : MState) (north south : ℕ) : MState × ℕ :=
  let ne := s.nv
  let se := s.nv + 1
  let s1 := { s with verts := fupd s.verts ne (s.verts north),
                     nv := s.nv + 1,
                     ring := insBefore s.ring (some north) ne }
  let s2 := Link s1 ((s1.verts north).left) ne
  let s3 := mapV s2 ne (fun w => w.SetProcessed true)
  let s4 := { s3 with verts := fupd s3.verts se (s3.verts south),
                      nv := s3.nv + 1,
                      ring := insAfter s3.ring south se }
  let s5 := Link s4 se ((s4.verts south).right)
  let s6 := mapV s5 se (fun w => w.SetProcessed true)
  let s7 := Link s6 south north
  let s8 := Link s7 ne se
  (s8, ne)

/-- Monotones::CheckSplit: realise a pending merge split recorded on
westEdge, unmarking it; returns the (possibly re-targeted) vertex. -/
def CheckSplit (s : MState) (vi westEdge : ℕ) : MState × ℕ :=
  match (s.edges westEdge).next with
  | some nxt =>
    let r := SplitVerts s vi ((s.edges nxt).south)
    (mapE r.1 westEdge (fun e => { e with next := none }), r.2)
  | none => (s, vi)

/-- The per-vertex body of Monotones::SweepBack after classification; returns
the updated state and the vertex the cursor rests on (the north-east
duplicate after a Merge split, the vertex itself otherwise). -/
def sweepBackBody (s1 : MState) (vi : ℕ) (ty : VertType) : MState × ℕ :=
  match ty with
  | .Merge =>
    let r1 := CheckSplit s1 vi ((s1.verts vi).edgeR.getD 0)
    let s2 := r1.1
    let v2 := r1.2
    let westOf := (prevIn s2.active ((s2.verts v2).edgeL.getD 0)).getD 0
    let s3 := (CheckSplit s2 v2 westOf).1
    let s4 := mapE s3 westOf (fun e => { e with next := (s3.verts v2).edgeL })
    let er := (s4.verts v2).edgeR.getD 0
    let el := (s4.verts v2).edgeL.getD 0
    let s5 := { s4 with active := s4.active.erase er, inactive := s4.inactive ++ [er] }
    let s6 := { s5 with active := s5.active.erase el, inactive := s5.inactive ++ [el] }
    (s6, v2)
  | .End =>
    let s2 := (CheckSplit s1 vi ((s1.verts vi).edgeR.getD 0)).1
    let er := (s2.verts vi).edgeR.getD 0
    let el := (s2.verts vi).edgeL.getD 0
    let s3 := { s2 with active := s2.active.erase er, inactive := s2.inactive ++ [er] }
    let s4 := { s3 with active := s3.active.erase el, inactive := s3.inactive ++ [el] }
    (s4, vi)
  | .Forward =>
    ((CheckSplit s1 vi ((prevIn s1.active ((s1.verts vi).edgeL.getD 0)).getD 0)).1, vi)
  | .Backward =>
    ((CheckSplit s1 vi ((s1.verts vi).edgeR.getD 0)).1, vi)
  | .Start =>
    let we0 := (s1.verts vi).edgeL.getD 0
    let ee0 := (s1.verts vi).edgeR.getD 0
    let eastOf0 := (s1.edges we0).next
    let p1 : ℕ × ℕ := if nextIn s1.inactive ee0 = some we0 then (ee0, we0) else (we0, ee0)
    let w1 := p1.1
    let e1 := p1.2
    let p2 : ℕ × ℕ × Option ℕ :=
      if !(s1.edges w1).flipped then
        (e1, w1,
          match eastOf0 with
          | none => s1.active.head?
          | some eo => nextIn s1.active eo)
      else (w1, e1, eastOf0)
    let w2 := p2.1
    let e2 := p2.2.1
    let eastOf1 := p2.2.2
    let s2 := { s1 with active := insBefore s1.active eastOf1 e2,
                        inactive := s1.inactive.erase e2 }
    let s3 := { s2 with active := insBefore s2.active (some e2) w2,
                        inactive := s2.inactive.erase w2 }
    let s4 := mapE s3 w2 (fun e => { e with forward := !e.forward })
    let s5 := mapE s4 e2 (fun e => { e with forward := !e.forward })
    let isHole := (s5.edges w2).forward
    let s9 :=
      if isHole then
        let westOf := (prevIn s5.active w2).getD 0
        let split : ℕ :=
          match (s5.edges westOf).next with
          | some nx => (s5.edges nx).south
          | none =>
            if (s5.verts (s5.edges westOf).south).pos.y <
               (s5.verts (s5.edges (eastOf1.getD 0)).south).pos.y then
              (s5.edges (eastOf1.getD 0)).south
            else (s5.edges westOf).south
        let r := SplitVerts s5 vi split
        let s6 := r.1
        let eastVert := r.2
        let s7 := mapE s6 westOf (fun e => { e with next := none })
        let s8 := UpdateEdge s7 e2 eastVert
        UpdateEdge s8 w2 vi
      else
        mapV s5 vi (fun w => { w with edgeL := some w2, edgeR := some e2 })
    let s10 := mapE s9 w2 (fun e => { e with next := none })
    (mapE s10 e2 (fun e => { e with next := none }), vi)
  | .Skip => (s1, vi)

/-- The main loop of Monotones::SweepBack: walk the ring from end to begin,
classify, assert no Skip, apply the per-type body, mark processed. -/
def sweepBackLoop (po : Bool) : ℕ → MState → Option ℕ → Except PolyErr (MState × Bool)
  | 0, _, _ => .error .outOfFuel
  | fuel + 1, s, cursor =>
    match ringPrev s.ring cursor with
    | none => .ok (s, false)
    | some vi =>
      if (s.verts vi).Processed then sweepBackLoop po fuel s (some vi)
      else
        let r := ProcessVertType s vi
        let s1 := r.1
        let ty := r.2
        match overlapAssert po (decide (ty ≠ .Skip)) with
        | .error e => .error e
        | .ok true => .ok (s1, true)
        | .ok false =>
          let b := sweepBackBody s1 vi ty
          let s2 := mapV b.1 b.2 (fun w => w.SetProcessed true)
          sweepBackLoop po fuel s2 (some b.2)

/-- Monotones::SweepBack: reset every vertex to unprocessed and walk the ring
backwards from end(). -/
def SweepBack (s : MState) (po : Bool) (fuel : ℕ) : Except PolyErr (MState × Bool) :=
  let s0 := { s with verts := fun i =>
    if i < s.nv then (s.verts i).SetProcessed false else s.verts i }
  sweepBackLoop po fuel s0 none

/-- Append one vertex record to the arena and the ring; left and right start
as the self id, standing in for the end() initialisers of the source, and
are overwritten by the Link calls of ring construction. -/
def addVert (s : MState) (p : Vec2 × Int) : MState :=
  { s with verts := fupd s.verts s.nv ⟨p.1, p.2, 0, s.nv, s.nv, none, none⟩,
           nv := s.nv + 1,
           ring := s.ring ++ [s.nv] }

/-- Add one input polygon: push its vertices in order, linking consecutive
ones, then close the loop from the last back to the first. -/
def addPoly (s : MState) (poly : List (Vec2 × Int)) : MState :=
  match poly with
  | [] => s
  | _ :: _ =>
    let startId := s.nv
    let s1 := poly.foldl (fun acc p =>
      let acc1 := addVert acc p
      if acc.nv = startId then acc1 else Link acc1 (acc.nv - 1) acc.nv) s
    Link s1 (s1.nv - 1) startId

/-- The largest coordinate magnitude of the input, folded in input order as
in the constructor loop. -/
def bound (polys : List (List (Vec2 × Int))) : ℚ :=
  polys.foldl (fun b poly =>
    poly.foldl (fun b p => max b (max (abs p.1.x) (abs p.1.y))) b) 0

/-- The working precision: the caller value, or bound * kTolerance when the
caller value is negative. -/
def GetPrecision (polys : List (List (Vec2 × Int))) (precision : ℚ) : ℚ :=
  if precision < 0 then bound polys * kTolerance else precision

/-- Ring construction part of the Monotones constructor. -/
def buildRing (polys : List (List (Vec2 × Int))) (precision : ℚ) : MState :=
  polys.foldl addPoly
    { verts := fun _ => default, nv := 0, ring := [],
      edges := fun _ => default, ne := 0, active := [], inactive := [],
      precision := GetPrecision polys precision }

/-- The Monotones constructor: build the ring, choose the precision, run the
forward sweep and, unless it soft-failed, the backward sweep.  The returned
Bool records whether the backward sweep was run.  The debug-only Check()
calls between the sweeps are omitted (they are compiled out of release
builds and guarded by intermediateChecks). -/
def mk (polys : List (List (Vec2 × Int))) (precision : ℚ) (po : Bool) (fuel : ℕ) :
    Except PolyErr (MState × Bool) :=
  let s0 := buildRing polys precision
  match SweepForward s0 po fuel with
  | .error e => .error e
  | .ok (s1, true) => .ok (s1, false)
  | .ok (s1, false) =>
    match SweepBack s1 po fuel with
    | .error e => .error e
    | .ok (s2, _) => .ok (s2, true)

/-- The CCW oracle and mesh map a state induces for its triangulator. -/
def ccwOf (s : MState) : ℕ → ℕ → ℕ → Int :=
  fun a b c => CCW (s.verts a).pos (s.verts b).pos (s.verts c).pos s.precision

def meshOf (s : MState) : ℕ → Int := fun a => (s.verts a).mesh_idx

/-- The sweep-line ordinal assignment at the top of Monotones::Triangulate:
index = 1, 2, ... in ring order (written directly, bypassing the Skip guard
of SetProcessed, as the source does). -/
def setIndices (s : MState) : MState :=
  (s.ring.zip (List.range s.ring.length)).foldl
    (fun acc p => mapV acc p.1 (fun w => { w with index := (p.2 : Int) + 1 })) s

/-- The inner walk of one monotone: advance whichever flank's next vertex has
the smaller ordinal, processing each with last = false, until the flanks
meet; returns the meeting vertex. -/
def triWalk : ℕ → MState → TriState → ℕ → ℕ → List Tri →
    Except PolyErr (MState × TriState × ℕ × List Tri)
  | 0, _, _, _, _, _ => .error .outOfFuel
  | fuel + 1, s, st, vR, vL, acc =>
    if vR = vL then .ok (s, st, vR, acc)
    else if (s.verts vR).index < (s.verts vL).index then
      let r := Triangulator.ProcessVert (ccwOf s) (meshOf s) st vR true false
      let s1 := mapV s vR (fun w => w.SetProcessed true)
      triWalk fuel s1 r.1 ((s1.verts vR).right) vL (acc ++ r.2)
    else
      let r := Triangulator.ProcessVert (ccwOf s) (meshOf s) st vL false false
      let s1 := mapV s vL (fun w => w.SetProcessed true)
      triWalk fuel s1 r.1 vR ((s1.verts vL).left) (acc ++ r.2)

/-- The outer loop of Monotones::Triangulate: per monotone, run the walk and
the final last = true call, check the monotone produced triangles, subtract
2 + count from the running total, and finish by checking the total is 0. -/
def triOuter : ℕ → MState → Int → List Tri → List Tri × Except PolyErr Unit
  | 0, _, _, acc => (acc, .error .outOfFuel)
  | fuel + 1, s, left, acc =>
    match s.ring.find? (fun vid => !(s.verts vid).Processed) with
    | none => (acc, if left = 0 then .ok () else .error .topologyErr)
    | some start =>
      let s1 := mapV s start (fun w => w.SetProcessed true)
      match triWalk (fuel + 1) s1 (Triangulator.init start)
          ((s1.verts start).right) ((s1.verts start).left) [] with
      | .error e => (acc, .error e)
      | .ok (s2, st1, vR, ts) =>
        let r := Triangulator.ProcessVert (ccwOf s2) (meshOf s2) st1 vR true true
        let s3 := mapV s2 vR (fun w => w.SetProcessed true)
        let acc2 := acc ++ ts ++ r.2
        if r.1.triangles_output = 0 then (acc2, .error .topologyErr)
        else triOuter fuel s3 (left - (2 + (r.1.triangles_output : Int))) acc2

/-- Monotones::Triangulate: assign ordinals, then triangulate monotone by
monotone; returns the triangles accumulated so far alongside the outcome, so
a thrown error leaves the partial vector observable, as in the source. -/
def Triangulate (s : MState) (fuel : ℕ) : List Tri × Except PolyErr Unit :=
  let s1 := setIndices s
  triOuter fuel s1 (s1.ring.length : Int) []

end Monotones

/-- manifold::TriangulateIdx, with the triangle vector and the error outcome
both observable (the vector is filled in place in the source, so it retains
the partial triangulation when an exception is thrown mid-way). -/
def TriangulateIdx (polys : List (List (Vec2 × Int))) (precision : ℚ)
    (po : Bool) (fuel : ℕ) : List Tri × Except PolyErr Unit :=
  match Monotones.mk polys precision po fuel with
  | .error e => ([], .error e)
  | .ok (s, _) => Monotones.Triangulate s fuel

/-- manifold::TriangulateIdx as compiled without MANIFOLD_DEBUG: the whole
construction and triangulation run inside try; every std::exception is
caught and the (possibly empty or partial) triangle vector is returned. -/
def TriangulateIdxRelease (polys : List (List (Vec2 × Int))) (precision : ℚ)
    (po : Bool) (fuel : ℕ) : List Tri :=
  match Monotones.mk polys precision po fuel with
  | .error _ => []
  | .ok (s, _) => (Monotones.Triangulate s fuel).1

/-- The running triangle count of Monotones::Triangulate: it starts at the
ring size and each monotone subtracts 2 plus its triangle count; the final
check requires it to be exactly 0. -/
def trianglesLeftLoop (ringSize : Int) (counts : List ℕ) : Int :=
  counts.foldl (fun l (c : ℕ) => l - (2 + (c : Int))) ringSize

/-- The left pointer field of the vertex arena, as a map. -/
def leftMap (s : MState) : ℕ → ℕ := fun i => (s.verts i).left

/-- The right pointer field of the vertex arena, as a map. -/
def rightMap (s : MState) : ℕ → ℕ := fun i => (s.verts i).right

/-- The doubly-linked loop invariant on a pair of pointer maps over the live
ids below m: pointers stay live and are mutually inverse, so every polygon
loop is closed. -/
def LRInv (L R : ℕ → ℕ) (m : ℕ) : Prop :=
  ∀ i, i < m → L i < m ∧ R i < m ∧ R (L i) = i ∧ L (R i) = i

instance (L R : ℕ → ℕ) (m : ℕ) : Decidable (LRInv L R m) :=
  Nat.decidableBallLT m fun i _ =>
    L i < m ∧ R i < m ∧ R (L i) = i ∧ L (R i) = i

/-- The ring invariant of the embedding: v.left.right = v and
v.right.left = v for every live vertex. -/
def LinkedRing (s : MState) : Prop := LRInv (leftMap s) (rightMap s) s.nv

/-- The south duplicate's right pointer at the time SplitVerts reads it: the
original right of south, except that when south is north's left neighbour the
earlier Link has already redirected it to the fresh north-east duplicate. -/
def splitB (L R : ℕ → ℕ) (m n p : ℕ) : ℕ := if p = L n then m else R p

/-- The left-pointer map after SplitVerts on a ring with live ids below m,
splitting from north n to south p; fresh ids m (north-east) and m + 1
(south-east). -/
def splitL (L R : ℕ → ℕ) (m n p : ℕ) : ℕ → ℕ := fun i =>
  if i = m + 1 then m
  else if i = n then p
  else if i = splitB L R m n p then m + 1
  else if i = m then L n
  else L i

/-- The right-pointer map after SplitVerts, companion of splitL. -/
def splitR (L R : ℕ → ℕ) (m n p : ℕ) : ℕ → ℕ := fun i =>
  if i = m then m + 1
  else if i = p then n
  else if i = m + 1 then splitB L R m n p
  else if i = L n then m
  else R i

/-- The left-pointer table after an adjacent split (south = north's left
neighbour), where the merged fourth case of splitL is shadowed. -/
def adjL (L : ℕ → ℕ) (m n p : ℕ) : ℕ → ℕ := fun j =>
  if j = m + 1 then m else if j = n then p else if j = m then m + 1 else L j

/-- The right-pointer table after an adjacent split. -/
def adjR (R : ℕ → ℕ) (m n p : ℕ) : ℕ → ℕ := fun j =>
  if j = m then m + 1 else if j = p then n else if j = m + 1 then m else R j

/-- The left-pointer table after a generic split, with b the south
duplicate's right pointer. -/
def genL (L : ℕ → ℕ) (m n p b : ℕ) : ℕ → ℕ := fun j =>
  if j = m + 1 then m else if j = n then p else if j = b then m + 1
  else if j = m then L n else L j

/-- The right-pointer table after a generic split. -/
def genR (L R : ℕ → ℕ) (m n p b : ℕ) : ℕ → ℕ := fun j =>
  if j = m then m + 1 else if j = p then n else if j = m + 1 then b
  else if j = L n then m else R j

/-- A polygon whose three vertices are exactly collinear (within any
tolerance): the diagonal segment from (0,0) to (2,2). -/
def collinearTri : List (List (Vec2 × Int)) :=
  [[(⟨0, 0⟩, 0), (⟨1, 1⟩, 1), (⟨2, 2⟩, 2)]]

/-- A lone two-vertex collinear loop: its single monotone emits no triangle,
so the no-triangles topology assertion fires in both modes. -/
def collinearSeg : List (List (Vec2 × Int)) :=
  [[(⟨0, 0⟩, 0), (⟨1, 1⟩, 1)]]

/-- A single clockwise-wound triangle: a hole with no enclosing contour, on
which PlaceStart cannot find a consistent slot, so the forward sweep hits an
overlap assertion. -/
def cwTri : List (List (Vec2 × Int)) :=
  [[(⟨0, 0⟩, 0), (⟨0, 1⟩, 1), (⟨1, 0⟩, 2)]]

/-- A valid collinear triangle together with a two-vertex degenerate loop:
the sweeps succeed, the first monotone triangulates, and the two-vertex
monotone then trips the no-triangles topology assertion, leaving a partial
triangle vector. -/
def triPlusSeg : List (List (Vec2 × Int)) :=
  [[(⟨0, 0⟩, 0), (⟨1, 1⟩, 1), (⟨2, 2⟩, 2)],
   [(⟨5, 10⟩, 3), (⟨6, 11⟩, 4)]]

/-- A hand-built state whose vertex 0 has both neighbours processed but
incident edges that are not adjacent in the active list, so the classifier
returns Skip. -/
def skipState : MState :=
  { verts := fun i =>
      if i = 1 then ⟨⟨0, 0⟩, 1, -1, 0, 0, none, some 2⟩
      else if i = 2 then ⟨⟨0, 0⟩, 2, -1, 0, 0, some 0, none⟩
      else ⟨⟨0, 0⟩, 0, 0, 1, 2, none, none⟩,
    nv := 3, ring := [0],
    edges := fun _ => default, ne := 3,
    active := [0, 1, 2], inactive := [], precision := 0 }

/-- A hand-built state whose vertex 0 has both neighbours unprocessed. -/
def startState : MState :=
  { verts := fun i =>
      if i = 1 then ⟨⟨0, 0⟩, 1, 0, 0, 0, none, none⟩
      else if i = 2 then ⟨⟨0, 0⟩, 2, 0, 0, 0, none, none⟩
      else ⟨⟨0, 0⟩, 0, 0, 1, 2, none, none⟩,
    nv := 3, ring := [0, 1, 2],
    edges := fun _ => default, ne := 0,
    active := [], inactive := [], precision := 0 }

/-! ## Helper lemmas -/

theorem fupd_self {α : Type} (f : ℕ → α) (i : ℕ) (a : α) : fupd f i a i = a := by
  simp [fupd]

theorem fupd_other {α : Type} (f : ℕ → α) (i j : ℕ) (a : α) (h : j ≠ i) :
    fupd f i a j = f j := by
  simp [fupd, h]

@[simp]
theorem SetProcessed_left (v : VertAdj) (b : Bool) : (v.SetProcessed b).left = v.left := by
  unfold VertAdj.SetProcessed; split <;> rfl

@[simp]
theorem SetProcessed_right (v : VertAdj) (b : Bool) : (v.SetProcessed b).right = v.right := by
  unfold VertAdj.SetProcessed; split <;> rfl

theorem le_foldlMax {α : Type} (g : α → ℚ) :
    ∀ (l : List α) (c : ℚ), c ≤ l.foldl (fun b p => max b (g p)) c
  | [], c => le_refl c
  | a :: l, c => le_trans (le_max_left c (g a)) (le_foldlMax g l (max c (g a)))

theorem mem_le_foldlMax {α : Type} (g : α → ℚ) :
    ∀ (l : List α) (c : ℚ) (p : α), p ∈ l → g p ≤ l.foldl (fun b x => max b (g x)) c
  | a :: l, c, p, h => by
    rcases List.mem_cons.mp h with h1 | h2
    · subst h1
      exact le_trans (le_max_right c (g p)) (le_foldlMax g l _)
    · exact mem_le_foldlMax g l _ p h2

theorem foldlMax_cases {α : Type} (g : α → ℚ) :
    ∀ (l : List α) (c : ℚ), l.foldl (fun b p => max b (g p)) c = c ∨
      ∃ p ∈ l, l.foldl (fun b p => max b (g p)) c = g p
  | [], _ => .inl rfl
  | a :: l, c => by
    rcases foldlMax_cases g l (max c (g a)) with h | ⟨p, hp, he⟩
    · rcases max_choice c (g a) with h1 | h1
      · exact .inl (by simp only [List.foldl_cons]; rw [h, h1])
      · exact .inr ⟨a, List.mem_cons_self a l, by simp only [List.foldl_cons]; rw [h, h1]⟩
    · exact .inr ⟨p, List.mem_cons_of_mem a hp, by simpa using he⟩

theorem le_outerFold {α : Type} (g : α → ℚ) :
    ∀ (ls : List (List α)) (c : ℚ),
      c ≤ ls.foldl (fun b l => l.foldl (fun b p => max b (g p)) b) c
  | [], c => le_refl c
  | l :: ls, c => le_trans (le_foldlMax g l c) (le_outerFold g ls _)

theorem mem_le_outerFold {α : Type} (g : α → ℚ) :
    ∀ (ls : List (List α)) (c : ℚ) (l : List α) (p : α), l ∈ ls → p ∈ l →
      g p ≤ ls.foldl (fun b l => l.foldl (fun b p => max b (g p)) b) c
  | l0 :: ls, c, l, p, hl, hp => by
    rcases List.mem_cons.mp hl with h | h
    · subst h
      exact le_trans (mem_le_foldlMax g l c p hp) (le_outerFold g ls _)
    · exact mem_le_outerFold g ls _ l p h hp

theorem outerFold_cases {α : Type} (g : α → ℚ) :
    ∀ (ls : List (List α)) (c : ℚ),
      ls.foldl (fun b l => l.foldl (fun b p => max b (g p)) b) c = c ∨
      ∃ l ∈ ls, ∃ p ∈ l,
        ls.foldl (fun b l => l.foldl (fun b p => max b (g p)) b) c = g p
  | [], _ => .inl rfl
  | l :: ls, c => by
    rcases outerFold_cases g ls (l.foldl (fun b p => max b (g p)) c) with h | ⟨l', hl', p, hp, he⟩
    · rcases foldlMax_cases g l c with h1 | ⟨p, hp, h1⟩
      · exact .inl (by simp only [List.foldl_cons]; rw [h, h1])
      · exact .inr ⟨l, List.mem_cons_self l ls, p, hp,
          by simp only [List.foldl_cons]; rw [h, h1]⟩
    · exact .inr ⟨l', List.mem_cons_of_mem l hl', p, hp, by simpa using he⟩

theorem sameLoop_len (ccw : ℕ → ℕ → ℕ → Int) (dir : Int) (vi : ℕ) :
    ∀ (vtop : ℕ) (l : List ℕ),
      (Triangulator.sameLoop ccw dir vi vtop l).2.2.length +
        (Triangulator.sameLoop ccw dir vi vtop l).2.1.length + 1 = l.length + 1
  | _, [] => rfl
  | vtop, vj :: rest => by
    by_cases h : ccw vi vj vtop = dir ∨ ccw vi vj vtop = 0
    · have ih := sameLoop_len ccw dir vi vj rest
      simp only [Triangulator.sameLoop, h, if_true, if_pos, List.length_cons]
      omega
    · simp [Triangulator.sameLoop, h]

theorem fanLoop_len (vi : ℕ) :
    ∀ (vlast : ℕ) (l : List ℕ), (Triangulator.fanLoop vi vlast l).length = l.length
  | _, [] => rfl
  | _, vj :: rest => by
    simp [Triangulator.fanLoop, fanLoop_len vi vj rest]

theorem processVert_count (ccw : ℕ → ℕ → ℕ → Int) (mesh : ℕ → Int) (st : TriState)
    (vi : ℕ) (onRight last : Bool) (h : st.reflex_chain ≠ []) :
    (Triangulator.ProcessVert ccw mesh st vi onRight last).1.reflex_chain.length +
      (Triangulator.ProcessVert ccw mesh st vi onRight last).1.triangles_output =
      st.reflex_chain.length + st.triangles_output + 1 := by
  obtain ⟨chain, os, onr, tout⟩ := st
  match chain with
  | [] => exact absurd rfl h
  | [v1] =>
    simp [Triangulator.ProcessVert]
    omega
  | vtop :: vj :: rest =>
    by_cases hc : onr = onRight ∧ last = false
    · have hl := sameLoop_len ccw (if onr then 1 else -1) vi vtop (vj :: rest)
      simp only [List.length_cons] at hl
      simp only [Triangulator.ProcessVert, if_pos hc, List.length_cons, List.length_nil,
        List.length_map]
      omega
    · have hf := fanLoop_len vi vtop (vj :: rest)
      simp only [List.length_cons] at hf
      simp only [Triangulator.ProcessVert, if_neg hc, List.length_cons, List.length_nil,
        List.length_map]
      omega

theorem processVert_chain_ge2 (ccw : ℕ → ℕ → ℕ → Int) (mesh : ℕ → Int) (st : TriState)
    (vi : ℕ) (onRight last : Bool) (h : st.reflex_chain ≠ []) :
    2 ≤ (Triangulator.ProcessVert ccw mesh st vi onRight last).1.reflex_chain.length := by
  obtain ⟨chain, os, onr, tout⟩ := st
  match chain with
  | [] => exact absurd rfl h
  | [v1] => simp [Triangulator.ProcessVert]
  | vtop :: vj :: rest =>
    by_cases hc : onr = onRight ∧ last = false <;>
      simp [Triangulator.ProcessVert, hc]

theorem processVert_last_len (ccw : ℕ → ℕ → ℕ → Int) (mesh : ℕ → Int) (st : TriState)
    (vi : ℕ) (onRight : Bool) (h : 2 ≤ st.reflex_chain.length) :
    (Triangulator.ProcessVert ccw mesh st vi onRight true).1.reflex_chain.length = 2 := by
  obtain ⟨chain, os, onr, tout⟩ := st
  match chain with
  | [] => simp at h
  | [v1] => simp at h
  | vtop :: vj :: rest => simp [Triangulator.ProcessVert]

theorem foldCalls (ccw : ℕ → ℕ → ℕ → Int) (mesh : ℕ → Int) :
    ∀ (calls : List (ℕ × Bool)) (st : TriState), st.reflex_chain ≠ [] →
      ((calls.foldl (fun st c =>
          (Triangulator.ProcessVert ccw mesh st c.1 c.2 false).1) st).reflex_chain.length +
        (calls.foldl (fun st c =>
          (Triangulator.ProcessVert ccw mesh st c.1 c.2 false).1) st).triangles_output =
        st.reflex_chain.length + st.triangles_output + calls.length) ∧
      (calls.foldl (fun st c =>
        (Triangulator.ProcessVert ccw mesh st c.1 c.2 false).1) st).reflex_chain ≠ [] ∧
      (calls ≠ [] → 2 ≤ (calls.foldl (fun st c =>
        (Triangulator.ProcessVert ccw mesh st c.1 c.2 false).1) st).reflex_chain.length)
  | [], st, h => ⟨by simp, h, fun hc => absurd rfl hc⟩
  | c :: cs, st, h => by
    have hcount := processVert_count ccw mesh st c.1 c.2 false h
    have hge2 := processVert_chain_ge2 ccw mesh st c.1 c.2 false h
    have hne : (Triangulator.ProcessVert ccw mesh st c.1 c.2 false).1.reflex_chain ≠ [] := by
      intro hx
      rw [hx] at hge2
      simp at hge2
    obtain ⟨ih1, ih2, ih3⟩ :=
      foldCalls ccw mesh cs (Triangulator.ProcessVert ccw mesh st c.1 c.2 false).1 hne
    refine ⟨?_, ?_, fun _ => ?_⟩
    · simp only [List.foldl_cons, List.length_cons] at *
      omega
    · simpa only [List.foldl_cons] using ih2
    · cases cs with
      | nil => simpa only [List.foldl_cons, List.foldl_nil] using hge2
      | cons c2 cs2 =>
        simpa only [List.foldl_cons] using ih3 (by simp)

theorem trianglesLeftLoop_eq :
    ∀ (counts : List ℕ) (ringSize : Int),
      trianglesLeftLoop ringSize counts =
        ringSize - 2 * counts.length - (counts.sum : Int)
  | [], ringSize => by simp [trianglesLeftLoop]
  | c :: cs, ringSize => by
    have ih := trianglesLeftLoop_eq cs (ringSize - (2 + (c : Int)))
    simp only [trianglesLeftLoop, List.foldl_cons] at *
    rw [ih]
    simp only [List.length_cons, List.sum_cons]
    push_cast
    ring

theorem fupd_id {α : Type} (f : ℕ → α) (i : ℕ) : fupd f i (f i) = f := by
  funext j
  by_cases h : j = i <;> simp [fupd, h]

theorem leftMap_Link (s : MState) (l r : ℕ) :
    leftMap (Monotones.Link s l r) = fupd (leftMap s) r l := by
  funext j
  by_cases h1 : j = r <;> by_cases h2 : j = l <;> by_cases h3 : r = l <;>
    simp_all [Monotones.Link, mapV, leftMap, fupd]

theorem rightMap_Link (s : MState) (l r : ℕ) :
    rightMap (Monotones.Link s l r) = fupd (rightMap s) l r := by
  funext j
  by_cases h1 : j = r <;> by_cases h2 : j = l <;> by_cases h3 : r = l <;>
    simp_all [Monotones.Link, mapV, rightMap, fupd]

theorem leftMap_setProcessed (s : MState) (i : ℕ) (b : Bool) :
    leftMap (mapV s i (fun w => w.SetProcessed b)) = leftMap s := by
  funext j
  by_cases h : j = i <;> simp [mapV, leftMap, fupd, h]

theorem rightMap_setProcessed (s : MState) (i : ℕ) (b : Bool) :
    rightMap (mapV s i (fun w => w.SetProcessed b)) = rightMap s := by
  funext j
  by_cases h : j = i <;> simp [mapV, rightMap, fupd, h]

theorem splitVerts_maps (s : MState) (n p : ℕ) (hn : n < s.nv) (hp : p < s.nv) :
    leftMap (Monotones.SplitVerts s n p).1 = splitL (leftMap s) (rightMap s) s.nv n p ∧
    rightMap (Monotones.SplitVerts s n p).1 = splitR (leftMap s) (rightMap s) s.nv n p ∧
    (Monotones.SplitVerts s n p).1.nv = s.nv + 2 := by
  have hne : n ≠ s.nv := Nat.ne_of_lt hn
  have hpe : p ≠ s.nv := Nat.ne_of_lt hp
  have hpse : p ≠ s.nv + 1 := by omega
  set s1 : MState :=
    ({ s with verts := fupd s.verts s.nv (s.verts n), nv := s.nv + 1,
              ring := insBefore s.ring (some n) s.nv }) with hs1
  set a := (s1.verts n).left with ha
  set s2 := Monotones.Link s1 a s.nv with hs2
  set s3 := mapV s2 s.nv (fun w => w.SetProcessed true) with hs3
  set s4 : MState :=
    ({ s3 with verts := fupd s3.verts (s.nv + 1) (s3.verts p),
               nv := s3.nv + 1, ring := insAfter s3.ring p (s.nv + 1) }) with hs4
  set b := (s4.verts p).right with hb
  set s5 := Monotones.Link s4 (s.nv + 1) b with hs5
  set s6 := mapV s5 (s.nv + 1) (fun w => w.SetProcessed true) with hs6
  set s7 := Monotones.Link s6 p n with hs7
  set s8 := Monotones.Link s7 s.nv (s.nv + 1) with hs8
  have hkey : (Monotones.SplitVerts s n p).1 = s8 := rfl
  have ha2 : a = leftMap s n := by
    simp [ha, hs1, leftMap, fupd, hne]
  have l1 : leftMap s1 = fupd (leftMap s) s.nv ((s.verts n).left) := by
    funext j
    by_cases h : j = s.nv <;> simp [hs1, leftMap, fupd, h]
  have r1 : rightMap s1 = fupd (rightMap s) s.nv ((s.verts n).right) := by
    funext j
    by_cases h : j = s.nv <;> simp [hs1, rightMap, fupd, h]
  have l2 : leftMap s2 = fupd (leftMap s1) s.nv a := leftMap_Link s1 a s.nv
  have r2 : rightMap s2 = fupd (rightMap s1) a s.nv := rightMap_Link s1 a s.nv
  have l3 : leftMap s3 = leftMap s2 := leftMap_setProcessed s2 s.nv true
  have r3 : rightMap s3 = rightMap s2 := rightMap_setProcessed s2 s.nv true
  have hs3p : (s3.verts p).left = leftMap s p := by
    have : (s3.verts p).left = leftMap s3 p := rfl
    rw [this, l3, l2, l1]
    simp [fupd, hpe]
  have hb2 : b = splitB (leftMap s) (rightMap s) s.nv n p := by
    have : b = rightMap s4 p := rfl
    rw [this]
    have h4 : rightMap s4 = fupd (rightMap s3) (s.nv + 1) ((s3.verts p).right) := by
      funext j
      by_cases h : j = s.nv + 1 <;> simp [hs4, rightMap, fupd, h]
    rw [h4]
    simp only [fupd, hpse, if_neg]
    rw [r3, r2, r1]
    simp only [fupd, hpe, if_neg, splitB, ha2]
    by_cases h : p = leftMap s n <;> simp [h]
  have l4 : leftMap s4 = fupd (leftMap s3) (s.nv + 1) (leftMap s p) := by
    funext j
    by_cases h : j = s.nv + 1 <;> simp [hs4, leftMap, fupd, h, hs3p]
  have r4 : rightMap s4 = fupd (rightMap s3) (s.nv + 1) b := by
    funext j
    by_cases h : j = s.nv + 1 <;> simp [hs4, rightMap, fupd, h, hb]
  have l5 : leftMap s5 = fupd (leftMap s4) b (s.nv + 1) := leftMap_Link s4 (s.nv + 1) b
  have r5 : rightMap s5 = fupd (rightMap s4) (s.nv + 1) b := rightMap_Link s4 (s.nv + 1) b
  have l6 : leftMap s6 = leftMap s5 := leftMap_setProcessed s5 (s.nv + 1) true
  have r6 : rightMap s6 = rightMap s5 := rightMap_setProcessed s5 (s.nv + 1) true
  have l7 : leftMap s7 = fupd (leftMap s6) n p := leftMap_Link s6 p n
  have r7 : rightMap s7 = fupd (rightMap s6) p n := rightMap_Link s6 p n
  have l8 : leftMap s8 = fupd (leftMap s7) (s.nv + 1) s.nv := leftMap_Link s7 s.nv (s.nv + 1)
  have r8 : rightMap s8 = fupd (rightMap s7) s.nv (s.nv + 1) := rightMap_Link s7 s.nv (s.nv + 1)
  refine ⟨?_, ?_, rfl⟩
  · rw [hkey, l8, l7, l6, l5, l4, l3, l2, l1]
    funext i
    simp only [fupd, splitL, ← hb2, ← ha2]
    split_ifs <;> rfl
  · rw [hkey, r8, r7, r6, r5, r4, r3, r2, r1]
    funext i
    simp only [fupd, splitR, ← hb2, ← ha2]
    split_ifs <;> rfl

theorem adjLR_inv (L R : ℕ → ℕ) (m n p : ℕ) (hinv : LRInv L R m)
    (hn : n < m) (hp : p < m) (hpa : p = L n) :
    LRInv (adjL L m n p) (adjR R m n p) (m + 2) := by
  obtain ⟨hLn, hRn, hRLn, hLRn⟩ := hinv n hn
  obtain ⟨hLp, hRp, hRLp, hLRp⟩ := hinv p hp
  have injL : ∀ x y, x < m → y < m → L x = L y → x = y := by
    intro x y hx hy hxy
    have h1 := (hinv x hx).2.2.1
    have h2 := (hinv y hy).2.2.1
    rw [← h1, hxy, h2]
  have hRpn : R p = n := by rw [hpa]; exact hRLn
  have eLm : adjL L m n p m = m + 1 := by
    simp only [adjL]
    rw [if_neg (by omega : ¬m = m + 1), if_neg (by omega : ¬m = n)]; simp
  have eLse : adjL L m n p (m + 1) = m := by
    simp only [adjL]
    simp
  have eLn : adjL L m n p n = p := by
    simp only [adjL]
    rw [if_neg (by omega : ¬n = m + 1)]; simp
  have eRm : adjR R m n p m = m + 1 := by
    simp only [adjR]
    simp
  have eRse : adjR R m n p (m + 1) = m := by
    simp only [adjR]
    rw [if_neg (by omega : ¬m + 1 = m), if_neg (by omega : ¬m + 1 = p)]; simp
  have eRp : adjR R m n p p = n := by
    simp only [adjR]
    rw [if_neg (by omega : ¬p = m)]; simp
  intro i hi
  by_cases hse : i = m + 1
  · rw [hse, eLse, eRse, eRm, eLm]
    exact ⟨by omega, by omega, rfl, rfl⟩
  · by_cases hmi : i = m
    · rw [hmi, eLm, eRse, eRm, eLse]
      exact ⟨by omega, by omega, rfl, rfl⟩
    · have him : i < m := by omega
      by_cases hin : i = n
      · refine ⟨by rw [hin, eLn]; omega, ?_, by rw [hin, eLn, eRp], ?_⟩
        · by_cases hnp : n = p
          · have eRn2 : adjR R m n p n = n := by
              simp only [adjR]
              rw [if_neg (by omega : ¬n = m), if_pos hnp]
            rw [hin, eRn2]
            omega
          · have eRn : adjR R m n p n = R n := by
              simp only [adjR]
              rw [if_neg (by omega : ¬n = m), if_neg (fun hx => hnp hx),
                  if_neg (by omega : ¬n = m + 1)]
            rw [hin, eRn]
            omega
        · by_cases hnp : n = p
          · have eRn2 : adjR R m n p n = n := by
              simp only [adjR]
              rw [if_neg (by omega : ¬n = m), if_pos hnp]
            rw [hin, eRn2, eLn]
            exact hnp.symm
          · have eRn : adjR R m n p n = R n := by
              simp only [adjR]
              rw [if_neg (by omega : ¬n = m), if_neg (fun hx => hnp hx),
                  if_neg (by omega : ¬n = m + 1)]
            have hRnn : ¬R n = n := by
              intro hx
              apply hnp
              have h2 := hLRn
              rw [hx] at h2
              rw [hpa, h2]
            have eLRn : adjL L m n p (R n) = n := by
              simp only [adjL]
              rw [if_neg (by omega : ¬R n = m + 1), if_neg hRnn,
                  if_neg (by omega : ¬R n = m)]
              exact hLRn
            rw [hin, eRn, eLRn]
      · by_cases hip : i = p
        · have hpn : ¬p = n := by
            intro hx
            exact hin (by rw [hip, hx])
          have eLp : adjL L m n p p = L p := by
            simp only [adjL]
            rw [if_neg (by omega : ¬p = m + 1), if_neg hpn, if_neg (by omega : ¬p = m)]
          have hLpp : ¬L p = p := by
            intro hx
            apply hpn
            have h2 := hRLp
            rw [hx] at h2
            rw [← hRpn, h2]
          have eRLp : adjR R m n p (L p) = p := by
            simp only [adjR]
            rw [if_neg (by omega : ¬L p = m), if_neg hLpp,
                if_neg (by omega : ¬L p = m + 1)]
            exact hRLp
          refine ⟨by rw [hip, eLp]; omega, by rw [hip, eRp]; omega, ?_, ?_⟩
          · rw [hip, eLp, eRLp]
          · rw [hip, eRp, eLn]
        · obtain ⟨hLi, hRi, hRLi, hLRi⟩ := hinv i him
          have eLi : adjL L m n p i = L i := by
            simp only [adjL]
            rw [if_neg (by omega : ¬i = m + 1), if_neg hin, if_neg (by omega : ¬i = m)]
          have eRi : adjR R m n p i = R i := by
            simp only [adjR]
            rw [if_neg (by omega : ¬i = m), if_neg hip, if_neg (by omega : ¬i = m + 1)]
          have hLip : ¬L i = p := by
            intro hx
            rw [hpa] at hx
            exact hin (injL i n him hn hx)
          have eRLi : adjR R m n p (L i) = i := by
            simp only [adjR]
            rw [if_neg (by omega : ¬L i = m), if_neg hLip,
                if_neg (by omega : ¬L i = m + 1)]
            exact hRLi
          have hRin : ¬R i = n := by
            intro hx
            apply hip
            have h2 := hLRi
            rw [hx] at h2
            rw [hpa, ← h2]
          have eLRi : adjL L m n p (R i) = i := by
            simp only [adjL]
            rw [if_neg (by omega : ¬R i = m + 1), if_neg hRin,
                if_neg (by omega : ¬R i = m)]
            exact hLRi
          exact ⟨by rw [eLi]; omega, by rw [eRi]; omega,
            by rw [eLi, eRLi], by rw [eRi, eLRi]⟩

theorem genLR_inv (L R : ℕ → ℕ) (m n p b : ℕ) (hinv : LRInv L R m)
    (hn : n < m) (hp : p < m) (hpa : ¬p = L n) (hb : b = R p) :
    LRInv (genL L m n p b) (genR L R m n p b) (m + 2) := by
  obtain ⟨hLn, hRn, hRLn, hLRn⟩ := hinv n hn
  obtain ⟨hLp, hRp, hRLp, hLRp⟩ := hinv p hp
  have injL : ∀ x y, x < m → y < m → L x = L y → x = y := by
    intro x y hx hy hxy
    have h1 := (hinv x hx).2.2.1
    have h2 := (hinv y hy).2.2.1
    rw [← h1, hxy, h2]
  have injR : ∀ x y, x < m → y < m → R x = R y → x = y := by
    intro x y hx hy hxy
    have h1 := (hinv x hx).2.2.2
    have h2 := (hinv y hy).2.2.2
    rw [← h1, hxy, h2]
  have hbm : b < m := by rw [hb]; exact hRp
  have hbn : ¬b = n := by
    intro hx
    apply hpa
    rw [hb] at hx
    rw [← hLRp, hx]
  have hap : ¬L n = p := fun hx => hpa hx.symm
  have eLse : genL L m n p b (m + 1) = m := by
    simp only [genL]
    simp
  have eLm : genL L m n p b m = L n := by
    simp only [genL]
    rw [if_neg (by omega : ¬m = m + 1), if_neg (by omega : ¬m = n),
        if_neg (by omega : ¬m = b)]; simp
  have eLn : genL L m n p b n = p := by
    simp only [genL]
    rw [if_neg (by omega : ¬n = m + 1)]; simp
  have eLb : genL L m n p b b = m + 1 := by
    simp only [genL]
    rw [if_neg (by omega : ¬b = m + 1), if_neg hbn]; simp
  have eRm : genR L R m n p b m = m + 1 := by
    simp only [genR]
    simp
  have eRse : genR L R m n p b (m + 1) = b := by
    simp only [genR]
    rw [if_neg (by omega : ¬m + 1 = m), if_neg (by omega : ¬m + 1 = p)]; simp
  have eRp : genR L R m n p b p = n := by
    simp only [genR]
    rw [if_neg (by omega : ¬p = m)]; simp
  have eRLn : genR L R m n p b (L n) = m := by
    simp only [genR]
    rw [if_neg (by omega : ¬L n = m), if_neg hap, if_neg (by omega : ¬L n = m + 1)]
    simp
  intro i hi
  by_cases hse : i = m + 1
  · rw [hse, eLse, eRse, eRm, eLb]
    exact ⟨by omega, by omega, rfl, rfl⟩
  · by_cases hmi : i = m
    · rw [hmi, eLm, eRm, eRLn, eLse]
      exact ⟨by omega, by omega, rfl, rfl⟩
    · have him : i < m := by omega
      by_cases hin : i = n
      · refine ⟨by rw [hin, eLn]; omega, ?_, by rw [hin, eLn, eRp], ?_⟩
        · by_cases hnp : n = p
          · have eRn2 : genR L R m n p b n = n := by
              simp only [genR]
              rw [if_neg (by omega : ¬n = m), if_pos hnp]
            rw [hin, eRn2]
            omega
          · by_cases hna : n = L n
            · have eRn : genR L R m n p b n = m := by
                simp only [genR]
                rw [if_neg (by omega : ¬n = m), if_neg (fun hx => hnp hx),
                    if_neg (by omega : ¬n = m + 1), if_pos hna]
              rw [hin, eRn]
              omega
            · have eRn : genR L R m n p b n = R n := by
                simp only [genR]
                rw [if_neg (by omega : ¬n = m), if_neg (fun hx => hnp hx),
                    if_neg (by omega : ¬n = m + 1), if_neg hna]
              rw [hin, eRn]
              omega
        · by_cases hnp : n = p
          · have eRn2 : genR L R m n p b n = n := by
              simp only [genR]
              rw [if_neg (by omega : ¬n = m), if_pos hnp]
            rw [hin, eRn2, eLn]
            exact hnp.symm
          · by_cases hna : n = L n
            · have eRn : genR L R m n p b n = m := by
                simp only [genR]
                rw [if_neg (by omega : ¬n = m), if_neg (fun hx => hnp hx),
                    if_neg (by omega : ¬n = m + 1), if_pos hna]
              rw [hin, eRn, eLm, ← hna]
            · have eRn : genR L R m n p b n = R n := by
                simp only [genR]
                rw [if_neg (by omega : ¬n = m), if_neg (fun hx => hnp hx),
                    if_neg (by omega : ¬n = m + 1), if_neg hna]
              have hRnn : ¬R n = n := by
                intro hx
                apply hna
                have h2 := hLRn
                rw [hx] at h2
                exact h2.symm
              have hRnb : ¬R n = b := by
                rw [hb]
                intro hx
                exact hnp (injR n p hn hp hx)
              have eLRn : genL L m n p b (R n) = n := by
                simp only [genL]
                rw [if_neg (by omega : ¬R n = m + 1), if_neg hRnn, if_neg hRnb,
                    if_neg (by omega : ¬R n = m)]
                exact hLRn
              rw [hin, eRn, eLRn]
      · by_cases hip : i = p
        · have hpn : ¬p = n := by
            intro hx
            exact hin (by rw [hip, hx])
          refine ⟨?_, by rw [hip, eRp]; omega, ?_, by rw [hip, eRp, eLn]⟩
          · by_cases hpb : p = b
            · have eLp : genL L m n p b p = m + 1 := by
                simp only [genL]
                rw [if_neg (by omega : ¬p = m + 1), if_neg hpn, if_pos hpb]
              rw [hip, eLp]
              omega
            · have eLp : genL L m n p b p = L p := by
                simp only [genL]
                rw [if_neg (by omega : ¬p = m + 1), if_neg hpn, if_neg hpb,
                    if_neg (by omega : ¬p = m)]
              rw [hip, eLp]
              omega
          · by_cases hpb : p = b
            · have eLp : genL L m n p b p = m + 1 := by
                simp only [genL]
                rw [if_neg (by omega : ¬p = m + 1), if_neg hpn, if_pos hpb]
              rw [hip, eLp, eRse, ← hpb]
            · have eLp : genL L m n p b p = L p := by
                simp only [genL]
                rw [if_neg (by omega : ¬p = m + 1), if_neg hpn, if_neg hpb,
                    if_neg (by omega : ¬p = m)]
              have hLpp : ¬L p = p := by
                intro hx
                apply hpb
                have h2 := hRLp
                rw [hx] at h2
                rw [hb, h2]
              have hLpLn : ¬L p = L n := by
                intro hx
                exact hpn (injL p n hp hn hx)
              have eRLp : genR L R m n p b (L p) = p := by
                simp only [genR]
                rw [if_neg (by omega : ¬L p = m), if_neg hLpp,
                    if_neg (by omega : ¬L p = m + 1), if_neg hLpLn]
                exact hRLp
              rw [hip, eLp, eRLp]
        · obtain ⟨hLi, hRi, hRLi, hLRi⟩ := hinv i him
          refine ⟨?_, ?_, ?_, ?_⟩
          · by_cases hib : i = b
            · have eLi : genL L m n p b i = m + 1 := by
                simp only [genL]
                rw [if_neg (by omega : ¬i = m + 1), if_neg hin, if_pos hib]
              rw [eLi]
              omega
            · have eLi : genL L m n p b i = L i := by
                simp only [genL]
                rw [if_neg (by omega : ¬i = m + 1), if_neg hin, if_neg hib,
                    if_neg (by omega : ¬i = m)]
              rw [eLi]
              omega
          · by_cases hia : i = L n
            · have eRi : genR L R m n p b i = m := by
                simp only [genR]
                rw [if_neg (by omega : ¬i = m), if_neg hip,
                    if_neg (by omega : ¬i = m + 1), if_pos hia]
              rw [eRi]
              omega
            · have eRi : genR L R m n p b i = R i := by
                simp only [genR]
                rw [if_neg (by omega : ¬i = m), if_neg hip,
                    if_neg (by omega : ¬i = m + 1), if_neg hia]
              rw [eRi]
              omega
          · by_cases hib : i = b
            · have eLi : genL L m n p b i = m + 1 := by
                simp only [genL]
                rw [if_neg (by omega : ¬i = m + 1), if_neg hin, if_pos hib]
              rw [eLi, eRse, ← hib]
            · have eLi : genL L m n p b i = L i := by
                simp only [genL]
                rw [if_neg (by omega : ¬i = m + 1), if_neg hin, if_neg hib,
                    if_neg (by omega : ¬i = m)]
              have hLip : ¬L i = p := by
                intro hx
                apply hib
                have h2 := hRLi
                rw [hx] at h2
                rw [hb, h2]
              have hLiLn : ¬L i = L n := by
                intro hx
                exact hin (injL i n him hn hx)
              have eRLi : genR L R m n p b (L i) = i := by
                simp only [genR]
                rw [if_neg (by omega : ¬L i = m), if_neg hLip,
                    if_neg (by omega : ¬L i = m + 1), if_neg hLiLn]
                exact hRLi
              rw [eLi, eRLi]
          · by_cases hia : i = L n
            · have eRi : genR L R m n p b i = m := by
                simp only [genR]
                rw [if_neg (by omega : ¬i = m), if_neg hip,
                    if_neg (by omega : ¬i = m + 1), if_pos hia]
              rw [eRi, eLm, ← hia]
            · have eRi : genR L R m n p b i = R i := by
                simp only [genR]
                rw [if_neg (by omega : ¬i = m), if_neg hip,
                    if_neg (by omega : ¬i = m + 1), if_neg hia]
              have hRin : ¬R i = n := by
                intro hx
                apply hia
                have h2 := hLRi
                rw [hx] at h2
                exact h2.symm
              have hRib : ¬R i = b := by
                rw [hb]
                intro hx
                exact hip (injR i p him hp hx)
              have eLRi : genL L m n p b (R i) = i := by
                simp only [genL]
                rw [if_neg (by omega : ¬R i = m + 1), if_neg hRin, if_neg hRib,
                    if_neg (by omega : ¬R i = m)]
                exact hLRi
              rw [eRi, eLRi]

theorem splitLR_inv (L R : ℕ → ℕ) (m n p : ℕ) (hinv : LRInv L R m)
    (hn : n < m) (hp : p < m) :
    LRInv (splitL L R m n p) (splitR L R m n p) (m + 2) := by
  by_cases hpa : p = L n
  · have hbm : splitB L R m n p = m := by rw [splitB, if_pos hpa]
    have hL : splitL L R m n p = adjL L m n p := by
      funext j
      simp only [splitL, adjL, hbm]
      by_cases h1 : j = m + 1
      · simp [h1]
      · by_cases h2 : j = n
        · simp [h1, h2]
        · by_cases h3 : j = m
          · simp [h1, h2, h3]
          · simp [h1, h2, h3]
    have hR : splitR L R m n p = adjR R m n p := by
      funext j
      simp only [splitR, adjR, hbm]
      by_cases h1 : j = m
      · simp [h1]
      · by_cases h2 : j = p
        · simp [h1, h2]
        · by_cases h3 : j = m + 1
          · simp [h1, h2, h3]
          · have h4 : ¬j = L n := by rw [← hpa]; exact h2
            simp [h1, h2, h3, h4]
    rw [hL, hR]
    exact adjLR_inv L R m n p hinv hn hp hpa
  · have hbR : splitB L R m n p = R p := by rw [splitB, if_neg hpa]
    have hL : splitL L R m n p = genL L m n p (R p) := by
      funext j
      simp only [splitL, genL, hbR]
    have hR : splitR L R m n p = genR L R m n p (R p) := by
      funext j
      simp only [splitR, genR, hbR]
    rw [hL, hR]
    exact genLR_inv L R m n p (R p) hinv hn hp hpa rfl

theorem leftMap_mapV_keep (s : MState) (i : ℕ) (g : VertAdj → VertAdj)
    (h : ∀ w, (g w).left = w.left) : leftMap (mapV s i g) = leftMap s := by
  funext j
  by_cases hj : j = i <;> simp [mapV, leftMap, fupd, hj, h]

theorem rightMap_mapV_keep (s : MState) (i : ℕ) (g : VertAdj → VertAdj)
    (h : ∀ w, (g w).right = w.right) : rightMap (mapV s i g) = rightMap s := by
  funext j
  by_cases hj : j = i <;> simp [mapV, rightMap, fupd, hj, h]

theorem LR_UpdateEdge (s : MState) (e v : ℕ) :
    leftMap (Monotones.UpdateEdge s e v) = leftMap s ∧
    rightMap (Monotones.UpdateEdge s e v) = rightMap s := by
  constructor <;>
  · funext j
    by_cases hj : j = v <;>
      simp [Monotones.UpdateEdge, mapV, mapE, leftMap, rightMap, fupd, hj]

theorem LR_ProcessVertType (s : MState) (vi : ℕ) :
    leftMap (Monotones.ProcessVertType s vi).1 = leftMap s ∧
    rightMap (Monotones.ProcessVertType s vi).1 = rightMap s ∧
    (Monotones.ProcessVertType s vi).1.nv = s.nv := by
  unfold Monotones.ProcessVertType
  simp only []
  split_ifs
  all_goals
    refine ⟨?_, ?_, rfl⟩ <;>
    · funext j
      by_cases hj : j = vi <;>
        simp [Monotones.LinkEdges, Monotones.UpdateEdge, mapV, mapE,
          leftMap, rightMap, fupd, hj]

theorem LR_PlaceStart (s : MState) (vi : ℕ) :
    leftMap (Monotones.PlaceStart s vi).1 = leftMap s ∧
    rightMap (Monotones.PlaceStart s vi).1 = rightMap s ∧
    (Monotones.PlaceStart s vi).1.nv = s.nv := by
  unfold Monotones.PlaceStart
  simp only []
  split
  · exact ⟨rfl, rfl, rfl⟩
  · refine ⟨?_, ?_, rfl⟩ <;>
    · funext j
      by_cases hj : j = vi <;>
        simp [Monotones.LinkEdges, mapV, mapE, leftMap, rightMap, fupd, hj]

theorem LR_RemovePair (s : MState) (w : ℕ) :
    leftMap (Monotones.RemovePair s w) = leftMap s ∧
    rightMap (Monotones.RemovePair s w) = rightMap s ∧
    (Monotones.RemovePair s w).nv = s.nv :=
  ⟨rfl, rfl, rfl⟩

theorem LR_setIndices (s : MState) :
    leftMap (Monotones.setIndices s) = leftMap s ∧
    rightMap (Monotones.setIndices s) = rightMap s := by
  unfold Monotones.setIndices
  generalize s.ring.zip (List.range s.ring.length) = l
  induction l generalizing s with
  | nil => exact ⟨rfl, rfl⟩
  | cons hd tl ih =>
    simp only [List.foldl_cons]
    obtain ⟨ih1, ih2⟩ := ih (mapV s hd.1 fun w => { w with index := (hd.2 : Int) + 1 })
    constructor
    · rw [ih1, leftMap_mapV_keep _ hd.1
        (fun w => { w with index := (hd.2 : Int) + 1 }) (fun w => rfl)]
    · rw [ih2, rightMap_mapV_keep _ hd.1
        (fun w => { w with index := (hd.2 : Int) + 1 }) (fun w => rfl)]

theorem leftMap_addVert (s : MState) (p : Vec2 × Int) :
    leftMap (Monotones.addVert s p) = fupd (leftMap s) s.nv s.nv := by
  funext j
  by_cases hj : j = s.nv <;> simp [Monotones.addVert, leftMap, fupd, hj]

theorem rightMap_addVert (s : MState) (p : Vec2 × Int) :
    rightMap (Monotones.addVert s p) = fupd (rightMap s) s.nv s.nv := by
  funext j
  by_cases hj : j = s.nv <;> simp [Monotones.addVert, rightMap, fupd, hj]

theorem addPolyFold (startId : ℕ) :
    ∀ (l : List (Vec2 × Int)) (s : MState),
      startId < s.nv →
      LRInv (leftMap s) (rightMap s) startId →
      (∀ k, startId < k → k < s.nv →
        leftMap s k = k - 1 ∧ rightMap s (k - 1) = k) →
      startId < (l.foldl (fun acc p =>
          let acc1 := Monotones.addVert acc p
          if acc.nv = startId then acc1
          else Monotones.Link acc1 (acc.nv - 1) acc.nv) s).nv ∧
      LRInv (leftMap (l.foldl (fun acc p =>
          let acc1 := Monotones.addVert acc p
          if acc.nv = startId then acc1
          else Monotones.Link acc1 (acc.nv - 1) acc.nv) s))
        (rightMap (l.foldl (fun acc p =>
          let acc1 := Monotones.addVert acc p
          if acc.nv = startId then acc1
          else Monotones.Link acc1 (acc.nv - 1) acc.nv) s)) startId ∧
      (∀ k, startId < k → k < (l.foldl (fun acc p =>
          let acc1 := Monotones.addVert acc p
          if acc.nv = startId then acc1
          else Monotones.Link acc1 (acc.nv - 1) acc.nv) s).nv →
        leftMap (l.foldl (fun acc p =>
          let acc1 := Monotones.addVert acc p
          if acc.nv = startId then acc1
          else Monotones.Link acc1 (acc.nv - 1) acc.nv) s) k = k - 1 ∧
        rightMap (l.foldl (fun acc p =>
          let acc1 := Monotones.addVert acc p
          if acc.nv = startId then acc1
          else Monotones.Link acc1 (acc.nv - 1) acc.nv) s) (k - 1) = k)
  | [], s, h1, h2, h3 => ⟨h1, h2, h3⟩
  | p0 :: rest, s, h1, h2, h3 => by
    simp only [List.foldl_cons]
    have hcond : ¬s.nv = startId := by omega
    simp only [hcond, if_false]
    set c := s.nv with hc
    set s1 := Monotones.Link (Monotones.addVert s p0) (c - 1) c with hs1
    have hnv1 : s1.nv = c + 1 := rfl
    have hL1 : leftMap s1 = fupd (fupd (leftMap s) c c) c (c - 1) := by
      rw [hs1, leftMap_Link, leftMap_addVert]
    have hR1 : rightMap s1 = fupd (fupd (rightMap s) c c) (c - 1) c := by
      rw [hs1, rightMap_Link, rightMap_addVert]
    have hA1 : startId < s1.nv := by omega
    have hA2 : LRInv (leftMap s1) (rightMap s1) startId := by
      intro i hil
      obtain ⟨q1, q2, q3, q4⟩ := h2 i hil
      have hic : ¬i = c := by omega
      have hic1 : ¬i = c - 1 := by omega
      have hlc : ¬leftMap s i = c := by omega
      have hlc1 : ¬leftMap s i = c - 1 := by omega
      have hrc : ¬rightMap s i = c := by omega
      have hrc1 : ¬rightMap s i = c - 1 := by omega
      rw [hL1, hR1]
      simp only [fupd, hic, hic1, hlc, hlc1, hrc, hrc1, if_false]
      exact ⟨q1, q2, q3, q4⟩
    have hA3 : ∀ k, startId < k → k < s1.nv →
        leftMap s1 k = k - 1 ∧ rightMap s1 (k - 1) = k := by
      intro k hk1 hk2
      rw [hnv1] at hk2
      rw [hL1, hR1]
      by_cases hkc : k = c
      · subst hkc
        exact ⟨by simp [fupd], by simp [fupd]⟩
      · have hkc2 : k < c := by omega
        obtain ⟨q1, q2⟩ := h3 k hk1 hkc2
        have hx1 : ¬k = c := hkc
        have hx2 : ¬k - 1 = c - 1 := by omega
        have hx3 : ¬k - 1 = c := by omega
        constructor
        · simp only [fupd, hx1, if_false]
          exact q1
        · simp only [fupd, hx2, hx3, if_false]
          exact q2
    exact addPolyFold startId rest s1 hA1 hA2 hA3

theorem closeRing_inv (L R : ℕ → ℕ) (st m : ℕ) (hst : st < m)
    (h2 : LRInv L R st)
    (h3 : ∀ k, st < k → k < m → L k = k - 1 ∧ R (k - 1) = k) :
    LRInv (fupd L st (m - 1)) (fupd R (m - 1) st) m := by
  intro i hi
  simp only [fupd]
  by_cases his : i < st
  · obtain ⟨q1, q2, q3, q4⟩ := h2 i his
    have h1 : ¬i = st := by omega
    have h0 : ¬i = m - 1 := by omega
    have hL : ¬L i = m - 1 := by omega
    have hR : ¬R i = st := by omega
    refine ⟨?_, ?_, ?_, ?_⟩
    · rw [if_neg h1]; omega
    · rw [if_neg h0]; omega
    · rw [if_neg h1, if_neg hL, q3]
    · rw [if_neg h0, if_neg hR, q4]
  · by_cases hieq : i = st
    · rw [hieq]
      by_cases hsm : st = m - 1
      · refine ⟨?_, ?_, ?_, ?_⟩
        · rw [if_pos rfl]; omega
        · rw [if_pos hsm]; omega
        · rw [if_pos rfl, if_pos rfl]
        · rw [if_pos hsm, if_pos rfl]; omega
      · obtain ⟨q1, q2⟩ := h3 (st + 1) (by omega) (by omega)
        simp only [Nat.add_sub_cancel] at q1 q2
        have hne : ¬st + 1 = st := by omega
        refine ⟨?_, ?_, ?_, ?_⟩
        · rw [if_pos rfl]; omega
        · rw [if_neg hsm, q2]; omega
        · rw [if_pos rfl, if_pos rfl]
        · rw [if_neg hsm, q2, if_neg hne, q1]
    · have hgt : st < i := by omega
      obtain ⟨q1, q2⟩ := h3 i hgt hi
      have h1 : ¬i = st := hieq
      have h2' : ¬i - 1 = m - 1 := by omega
      refine ⟨?_, ?_, ?_, ?_⟩
      · rw [if_neg h1, q1]; omega
      · by_cases him : i = m - 1
        · rw [if_pos him]; omega
        · obtain ⟨q3, q4⟩ := h3 (i + 1) (by omega) (by omega)
          simp only [Nat.add_sub_cancel] at q3 q4
          rw [if_neg him, q4]; omega
      · rw [if_neg h1, q1, if_neg h2', q2]
      · by_cases him : i = m - 1
        · rw [if_pos him, if_pos rfl]; omega
        · obtain ⟨q3, q4⟩ := h3 (i + 1) (by omega) (by omega)
          simp only [Nat.add_sub_cancel] at q3 q4
          have h4 : ¬i + 1 = st := by omega
          rw [if_neg him, q4, if_neg h4, q3]

theorem addPoly_preserves (s : MState) (poly : List (Vec2 × Int))
    (hinv : LinkedRing s) : LinkedRing (Monotones.addPoly s poly) := by
  match poly with
  | [] => exact hinv
  | p0 :: rest =>
    unfold Monotones.addPoly
    simp only [List.foldl_cons, if_pos rfl]
    set startId := s.nv with hst
    set sa := Monotones.addVert s p0 with hsa
    have hnva : sa.nv = startId + 1 := rfl
    have hP1 : startId < sa.nv := by omega
    have hP2 : LRInv (leftMap sa) (rightMap sa) startId := by
      intro i hi
      obtain ⟨q1, q2, q3, q4⟩ := hinv i (by omega)
      have h1 : ¬i = startId := by omega
      have h2 : ¬leftMap s i = startId := by omega
      have h3 : ¬rightMap s i = startId := by omega
      rw [hsa, leftMap_addVert, rightMap_addVert]
      simp only [fupd, h1, h2, h3, if_false]
      exact ⟨q1, q2, q3, q4⟩
    have hP3 : ∀ k, startId < k → k < sa.nv →
        leftMap sa k = k - 1 ∧ rightMap sa (k - 1) = k := by
      intro k hk1 hk2
      omega
    obtain ⟨hQ1, hQ2, hQ3⟩ := addPolyFold startId rest sa hP1 hP2 hP3
    set s1 := rest.foldl (fun acc p =>
      let acc1 := Monotones.addVert acc p
      if acc.nv = startId then acc1
      else Monotones.Link acc1 (acc.nv - 1) acc.nv) sa with hs1
    have key := closeRing_inv (leftMap s1) (rightMap s1) startId s1.nv hQ1 hQ2 hQ3
    show LinkedRing (Monotones.Link s1 (s1.nv - 1) startId)
    have hnvL : (Monotones.Link s1 (s1.nv - 1) startId).nv = s1.nv := rfl
    unfold LinkedRing
    rw [hnvL, leftMap_Link, rightMap_Link]
    exact key

theorem foldl_addPoly_preserves :
    ∀ (l : List (List (Vec2 × Int))) (s : MState), LinkedRing s →
      LinkedRing (l.foldl Monotones.addPoly s)
  | [], _, hs => hs
  | hd :: tl, s, hs =>
    foldl_addPoly_preserves tl (Monotones.addPoly s hd) (addPoly_preserves s hd hs)

theorem buildRing_linked (polys : List (List (Vec2 × Int))) (eps : ℚ) :
    LinkedRing (Monotones.buildRing polys eps) := by
  unfold Monotones.buildRing
  apply foldl_addPoly_preserves
  intro i hi
  exact absurd hi (Nat.not_lt_zero i)

theorem setIndices_nv (s : MState) : (Monotones.setIndices s).nv = s.nv := by
  unfold Monotones.setIndices
  generalize s.ring.zip (List.range s.ring.length) = l
  induction l generalizing s with
  | nil => rfl
  | cons hd tl ih =>
    simp only [List.foldl_cons]
    exact ih (mapV s hd.1 fun w => { w with index := (hd.2 : Int) + 1 })

/-! ## Claim theorems -/

/-- Claim C1, counterexample: with the reflex chain on the right flank
(onRight true), AddTriangle emits the triple (v0, v1, v2) unswapped, so the
claimed condition for swapping v1 and v2 is inverted. -/
theorem c1_counterexample :
    Triangulator.AddTriangle true 0 1 2 = ⟨0, 1, 2⟩ ∧
    Triangulator.AddTriangle true 0 1 2 ≠ ⟨0, 2, 1⟩ :=
  ⟨rfl, by decide⟩

/-- Claim C1, amended: the emitted triple is (v0, v1, v2) with v1 and v2
swapped exactly when the reflex chain lies on the left flank (onRight
false). -/
theorem c1_amended (onRight : Bool) (m0 m1 m2 : Int) :
    Triangulator.AddTriangle onRight m0 m1 m2 =
      if onRight then (⟨m0, m1, m2⟩ : Tri) else ⟨m0, m2, m1⟩ := by
  cases onRight <;> rfl

/-- Claim C6, counterexample: two vertices with equal y and distinct x are
not ordered either way by the queue comparator VertAdj::lt, so the priority
queue and the start pre-sort cannot break y-ties by smaller x. -/
theorem c6_counterexample :
    (⟨⟨0, 0⟩, 0, 0, 0, 0, none, none⟩ : VertAdj).pos.y =
      (⟨⟨1, 0⟩, 1, 0, 0, 0, none, none⟩ : VertAdj).pos.y ∧
    (⟨⟨0, 0⟩, 0, 0, 0, 0, none, none⟩ : VertAdj).pos.x <
      (⟨⟨1, 0⟩, 1, 0, 0, 0, none, none⟩ : VertAdj).pos.x ∧
    VertAdj.lt ⟨⟨0, 0⟩, 0, 0, 0, 0, none, none⟩ ⟨⟨1, 0⟩, 1, 0, 0, 0, none, none⟩ = false ∧
    VertAdj.lt ⟨⟨1, 0⟩, 1, 0, 0, 0, none, none⟩ ⟨⟨0, 0⟩, 0, 0, 0, 0, none, none⟩ = false := by
  refine ⟨rfl, by norm_num, ?_, ?_⟩ <;> with_unfolding_all rfl

/-- Claim C6, amended: the comparator behind both the priority queue and the
start pre-sort compares y only; x never participates, so equal-y ties are
left in unspecified order. -/
theorem c6_amended (a b : VertAdj) (x1 x2 : ℚ) :
    VertAdj.lt a b = decide (a.pos.y < b.pos.y) ∧
    VertAdj.lt { a with pos := ⟨x1, a.pos.y⟩ } { b with pos := ⟨x2, b.pos.y⟩ } =
      VertAdj.lt a b :=
  ⟨rfl, rfl⟩

/-- Claim C8, counterexample: the exactly collinear polygon
((0,0),(1,1),(2,2)) triangulates to one (degenerate) triangle and raises no
error in strict mode (processOverlaps unset) nor in soft-fail mode, against
the claimed zero triangles and strict-mode GeometryError. -/
theorem c8_counterexample :
    CCW ⟨0, 0⟩ ⟨1, 1⟩ ⟨2, 2⟩ 0 = 0 ∧
    TriangulateIdx collinearTri (1/10) false 200 = ([⟨2, 0, 1⟩], .ok ()) ∧
    TriangulateIdx collinearTri (1/10) true 200 = ([⟨2, 0, 1⟩], .ok ()) := by
  refine ⟨?_, ?_, ?_⟩ <;> with_unfolding_all rfl

/-- Claim C8, amended: the claimed behaviour (zero triangles, strict-mode
GeometryError) does not hold of the within-tolerance collinear polygon
((0,0),(1,1),(2,2)) at tolerance 1/10: both modes complete without raising
and emit one degenerate triangle, 1 = 3 - 2.  This completion is a fact of
the instance, not of collinear input in general: the two-vertex collinear
loop ((0,0),(1,1)) emits zero triangles and raises TopologyError in both
modes. -/
theorem c8_amended :
    TriangulateIdxRelease collinearTri (1/10) false 200 = [⟨2, 0, 1⟩] ∧
    TriangulateIdxRelease collinearTri (1/10) true 200 = [⟨2, 0, 1⟩] ∧
    (TriangulateIdx collinearTri (1/10) false 200).2 = .ok () ∧
    (TriangulateIdx collinearTri (1/10) true 200).2 = .ok () ∧
    (Monotones.buildRing collinearTri (1/10)).nv - 2 = 1 ∧
    TriangulateIdx collinearSeg (1/10) false 200 = ([], .error .topologyErr) ∧
    TriangulateIdx collinearSeg (1/10) true 200 = ([], .error .topologyErr) := by
  refine ⟨?_, ?_, ?_, ?_, ?_, ?_, ?_⟩ <;> with_unfolding_all rfl

/-- Claim C7: with a negative caller tolerance the working precision is
bound * kTolerance where kTolerance = 2 ^ (-13) and bound is the largest
coordinate magnitude (every |x| and |y| is at most bound, and bound is 0 or
attained by some coordinate); a non-negative caller tolerance is used
unchanged. -/
theorem c7_precision (polys : List (List (Vec2 × Int))) (eps : ℚ) :
    (eps < 0 → Monotones.GetPrecision polys eps = Monotones.bound polys * kTolerance) ∧
    (0 ≤ eps → Monotones.GetPrecision polys eps = eps) ∧
    kTolerance = 1 / 2 ^ 13 ∧
    (∀ poly ∈ polys, ∀ p ∈ poly,
      abs (p.1).x ≤ Monotones.bound polys ∧ abs (p.1).y ≤ Monotones.bound polys) ∧
    (Monotones.bound polys = 0 ∨ ∃ poly ∈ polys, ∃ p ∈ poly,
      Monotones.bound polys = abs (p.1).x ∨ Monotones.bound polys = abs (p.1).y) := by
  refine ⟨fun h => ?_, fun h => ?_, by norm_num [kTolerance], fun poly hpoly p hp => ?_, ?_⟩
  · simp [Monotones.GetPrecision, if_pos h]
  · simp [Monotones.GetPrecision, not_lt.2 h]
  · have hb := mem_le_outerFold (fun p : Vec2 × Int => max (abs (p.1).x) (abs (p.1).y))
      polys 0 poly p hpoly hp
    exact ⟨le_trans (le_max_left _ _) hb, le_trans (le_max_right _ _) hb⟩
  · rcases outerFold_cases (fun p : Vec2 × Int => max (abs (p.1).x) (abs (p.1).y))
      polys 0 with h | ⟨poly, hpoly, p, hp, he⟩
    · exact .inl h
    · refine .inr ⟨poly, hpoly, p, hp, ?_⟩
      rcases max_choice (abs (p.1).x) (abs (p.1).y) with h1 | h1
      · exact .inl (by rw [Monotones.bound]; rw [he, h1])
      · exact .inr (by rw [Monotones.bound]; rw [he, h1])

/-- Witness for C7: a single vertex (3, -4) with caller tolerance -1 gives
precision bound * kTolerance with bound = 4. -/
theorem c7_witness :
    (-1 : ℚ) < 0 ∧
    Monotones.GetPrecision [[((⟨3, -4⟩ : Vec2), (0 : Int))]] (-1) =
      Monotones.bound [[((⟨3, -4⟩ : Vec2), (0 : Int))]] * kTolerance :=
  ⟨by norm_num, (c7_precision [[((⟨3, -4⟩ : Vec2), (0 : Int))]] (-1)).1 (by norm_num)⟩

/-- Claim C2: a monotone of n vertices yields exactly n - 2 triangles, and
the Triangulate total check fails exactly when the emitted total differs
from ring size minus twice the monotone count.  A monotone of n vertices
drives the triangulator with the start seed, n - 2 interior calls and one
final call, so with calls the interior list, n = calls.length + 2 and the
output count equals calls.length = n - 2, for every CCW oracle and mesh
map; and the running count of Monotones::Triangulate (start at the ring
size, subtract 2 + count per monotone) ends at 0, avoiding the
TopologyError, exactly when the counts sum to ringSize - 2M. -/
theorem c2_triangle_count :
    (∀ (ccw : ℕ → ℕ → ℕ → Int) (mesh : ℕ → Int) (v0 : ℕ) (calls : List (ℕ × Bool))
       (vf : ℕ) (rf : Bool), 1 ≤ calls.length →
       (Triangulator.run ccw mesh v0 calls vf rf).triangles_output = calls.length) ∧
    (∀ (ringSize : Int) (counts : List ℕ),
       trianglesLeftLoop ringSize counts = 0 ↔
       (counts.sum : Int) = ringSize - 2 * counts.length) := by
  constructor
  · intro ccw mesh v0 calls vf rf hcalls
    have hinit : (Triangulator.init v0).reflex_chain ≠ [] := by
      simp [Triangulator.init]
    obtain ⟨h1, h2, h3⟩ := foldCalls ccw mesh calls (Triangulator.init v0) hinit
    set st1 := calls.foldl (fun st c =>
      (Triangulator.ProcessVert ccw mesh st c.1 c.2 false).1) (Triangulator.init v0) with hst1
    have hne : calls ≠ [] := by
      intro hx
      rw [hx] at hcalls
      simp at hcalls
    have hge2 := h3 hne
    have hcount := processVert_count ccw mesh st1 vf rf true h2
    have hlast := processVert_last_len ccw mesh st1 vf rf hge2
    have hrun : Triangulator.run ccw mesh v0 calls vf rf =
        (Triangulator.ProcessVert ccw mesh st1 vf rf true).1 := rfl
    rw [hrun]
    simp only [Triangulator.init, List.length_cons, List.length_nil] at h1
    rw [hlast] at hcount
    omega
  · intro ringSize counts
    rw [trianglesLeftLoop_eq]
    omega

/-- Witness for C2: a three-vertex monotone (one interior call, one final
call) yields exactly one triangle, for a concrete oracle. -/
theorem c2_witness :
    1 ≤ ([((1 : ℕ), true)] : List (ℕ × Bool)).length ∧
    (Triangulator.run (fun _ _ _ => 1) (fun i => (i : Int)) 0 [(1, true)] 2
      true).triangles_output = 1 ∧
    (trianglesLeftLoop 3 [1] = 0 ↔ ((([1] : List ℕ).sum : Int) = 3 - 2 * 1)) :=
  ⟨by decide, c2_triangle_count.1 (fun _ _ _ => 1) (fun i => (i : Int)) 0 [(1, true)] 2
    true (by decide), by simpa using c2_triangle_count.2 3 [1]⟩

/-- Claim C3: on an overlap detection (a failed OVERLAP_ASSERT condition),
strict mode raises GeometryError and processOverlaps mode returns the
soft-fail sentinel; and whenever the forward sweep soft-fails, the
constructor returns without running the backward sweep (the flag in the
constructor result is false and the state is the forward sweep's state
unchanged), while TriangulateIdx still runs the triangulator on that
state. -/
theorem c3_overlap_policy (polys : List (List (Vec2 × Int))) (eps : ℚ) (fuel : ℕ)
    (h : ∃ s1, Monotones.SweepForward (Monotones.buildRing polys eps) true fuel =
      .ok (s1, true)) :
    Monotones.overlapAssert false false = .error .geometryErr ∧
    Monotones.overlapAssert true false = .ok true ∧
    ∃ s1, Monotones.SweepForward (Monotones.buildRing polys eps) true fuel = .ok (s1, true) ∧
      Monotones.mk polys eps true fuel = .ok (s1, false) ∧
      TriangulateIdx polys eps true fuel = Monotones.Triangulate s1 fuel := by
  obtain ⟨s1, hs⟩ := h
  have hmk : Monotones.mk polys eps true fuel = .ok (s1, false) := by
    simp only [Monotones.mk, hs]
  refine ⟨rfl, rfl, s1, hs, hmk, ?_⟩
  unfold TriangulateIdx
  rw [hmk]

/-- Witness for C3 at the clockwise-wound triangle with processOverlaps set:
the forward sweep soft-fails there. -/
theorem c3_witness :
    Monotones.overlapAssert false false = .error .geometryErr ∧
    Monotones.overlapAssert true false = .ok true ∧
    ∃ s1, Monotones.SweepForward (Monotones.buildRing cwTri (1/10)) true 200 =
        .ok (s1, true) ∧
      Monotones.mk cwTri (1/10) true 200 = .ok (s1, false) ∧
      TriangulateIdx cwTri (1/10) true 200 = Monotones.Triangulate s1 200 :=
  c3_overlap_policy cwTri (1/10) 200 ⟨_, by with_unfolding_all rfl⟩

/-- Claim C4: the classifier's case analysis.  Neither neighbour processed
gives Start; only the right neighbour processed gives Backward, or Skip
exactly when the backward skip test fires; only the left neighbour processed
gives Forward, or Skip exactly when the forward skip test fires; both
processed gives Skip exactly when the incident edges v.left.edgeR and
v.right.edgeL are not immediate neighbours in the active list, End when
edgeL immediately follows edgeR (facing in), and Merge when edgeR
immediately follows edgeL (facing out). -/
theorem c4_classifier (s : MState) (vi : ℕ) :
    ((s.verts (s.verts vi).right).Processed = false →
     (s.verts (s.verts vi).left).Processed = false →
     (Monotones.ProcessVertType s vi).2 = .Start) ∧
    ((s.verts (s.verts vi).right).Processed = true →
     (s.verts (s.verts vi).left).Processed = false →
     ((Monotones.ProcessVertType s vi).2 = .Skip ↔ Monotones.bwdSkipTest s vi = true) ∧
     (Monotones.bwdSkipTest s vi = false →
      (Monotones.ProcessVertType s vi).2 = .Backward)) ∧
    ((s.verts (s.verts vi).right).Processed = false →
     (s.verts (s.verts vi).left).Processed = true →
     ((Monotones.ProcessVertType s vi).2 = .Skip ↔ Monotones.fwdSkipTest s vi = true) ∧
     (Monotones.fwdSkipTest s vi = false →
      (Monotones.ProcessVertType s vi).2 = .Forward)) ∧
    ((s.verts (s.verts vi).right).Processed = true →
     (s.verts (s.verts vi).left).Processed = true →
     ((Monotones.ProcessVertType s vi).2 = .Skip ↔
       (nextIn s.active ((s.verts (s.verts vi).right).edgeL.getD 0) ≠
          some ((s.verts (s.verts vi).left).edgeR.getD 0) ∧
        nextIn s.active ((s.verts (s.verts vi).left).edgeR.getD 0) ≠
          some ((s.verts (s.verts vi).right).edgeL.getD 0))) ∧
     (nextIn s.active ((s.verts (s.verts vi).right).edgeL.getD 0) =
        some ((s.verts (s.verts vi).left).edgeR.getD 0) →
      (Monotones.ProcessVertType s vi).2 = .End) ∧
     (nextIn s.active ((s.verts (s.verts vi).right).edgeL.getD 0) ≠
        some ((s.verts (s.verts vi).left).edgeR.getD 0) →
      nextIn s.active ((s.verts (s.verts vi).left).edgeR.getD 0) =
        some ((s.verts (s.verts vi).right).edgeL.getD 0) →
      (Monotones.ProcessVertType s vi).2 = .Merge)) := by
  refine ⟨fun hR hL => ?_, fun hR hL => ?_, fun hR hL => ?_, fun hR hL => ?_⟩
  · simp [Monotones.ProcessVertType, hR, hL]
  · cases hb : Monotones.bwdSkipTest s vi <;>
      simp [Monotones.ProcessVertType, hR, hL, hb]
  · cases hb : Monotones.fwdSkipTest s vi <;>
      simp [Monotones.ProcessVertType, hR, hL, hb]
  · by_cases h1 : nextIn s.active ((s.verts (s.verts vi).right).edgeL.getD 0) =
      some ((s.verts (s.verts vi).left).edgeR.getD 0)
    · simp [Monotones.ProcessVertType, hR, hL, h1, Monotones.LinkEdges, mapE, mapV]
    · by_cases h2 : nextIn s.active ((s.verts (s.verts vi).left).edgeR.getD 0) =
        some ((s.verts (s.verts vi).right).edgeL.getD 0)
      · simp [Monotones.ProcessVertType, hR, hL, h1, h2, Monotones.LinkEdges, mapE, mapV]
      · simp [Monotones.ProcessVertType, hR, hL, h1, h2]

/-- Witness for C4: a state whose vertex 0 has both neighbours unprocessed
is classified Start. -/
theorem c4_witness : (Monotones.ProcessVertType startState 0).2 = .Start :=
  (c4_classifier startState 0).1 (by with_unfolding_all rfl) (by with_unfolding_all rfl)

/-- Claim C5: when the classifier returns Skip for an unprocessed vertex
reached by the backward sweep, the run fails right there: strict mode raises
GeometryError and processOverlaps mode aborts the backward sweep with the
soft-fail return; no Skip-classified vertex is ever carried forward. -/
theorem c5_backward_skip_fails (fuel : ℕ) (s : MState) (cursor : Option ℕ) (vi : ℕ)
    (h1 : Monotones.ringPrev s.ring cursor = some vi)
    (h2 : (s.verts vi).Processed = false)
    (h3 : (Monotones.ProcessVertType s vi).2 = .Skip) :
    Monotones.sweepBackLoop false (fuel + 1) s cursor = .error .geometryErr ∧
    Monotones.sweepBackLoop true (fuel + 1) s cursor =
      .ok ((Monotones.ProcessVertType s vi).1, true) := by
  constructor <;>
    · unfold Monotones.sweepBackLoop
      rw [h1]
      simp only [h2, Bool.false_eq_true, if_false, h3, Monotones.overlapAssert]
      simp

/-- Witness for C5: a state whose vertex 0 has both neighbours processed but
non-adjacent incident edges, so the classifier yields Skip. -/
theorem c5_witness :
    Monotones.sweepBackLoop false 1 skipState none = .error .geometryErr ∧
    Monotones.sweepBackLoop true 1 skipState none =
      .ok ((Monotones.ProcessVertType skipState 0).1, true) :=
  c5_backward_skip_fails 0 skipState none 0 (by with_unfolding_all rfl)
    (by with_unfolding_all rfl) (by with_unfolding_all rfl)

/-- Claim C10: the release build of TriangulateIdx returns the accumulated
triangle vector no matter the outcome of construction or triangulation, so
no error propagates; concretely, on an input whose second loop has only two
vertices, triangulation throws a TopologyError after the first monotone, and
the release entry point still returns the one partial triangle. -/
theorem c10_release_catches :
    (∀ (polys : List (List (Vec2 × Int))) (eps : ℚ) (po : Bool) (fuel : ℕ),
      TriangulateIdxRelease polys eps po fuel = (TriangulateIdx polys eps po fuel).1) ∧
    (TriangulateIdx triPlusSeg (1/10) false 300).2 = .error .topologyErr ∧
    TriangulateIdxRelease triPlusSeg (1/10) false 300 = [⟨2, 0, 1⟩] := by
  refine ⟨fun polys eps po fuel => ?_, ?_, ?_⟩
  · rcases hm : Monotones.mk polys eps po fuel with e | ⟨s, b⟩ <;>
      simp [TriangulateIdxRelease, TriangulateIdx, hm]
  · with_unfolding_all rfl
  · with_unfolding_all rfl

/-- Claim C9: the doubly-linked ring invariant v.left.right = v and
v.right.left = v (for every live vertex id) holds after ring construction,
is preserved with the two fresh duplicates by every SplitVerts insertion of
the backward sweep, and is untouched by every other state operation of the
two sweeps and the triangulator: the classifier ProcessVert, PlaceStart,
RemovePair, UpdateEdge, the ordinal assignment of Triangulate, and the
SetProcessed marking (each of which leaves every left and right pointer,
and the live count, unchanged).  Loop closure is the invariant itself: left
and right are mutually inverse on the live ids. -/
theorem c9_ring_invariant :
    (∀ (polys : List (List (Vec2 × Int))) (eps : ℚ),
      LinkedRing (Monotones.buildRing polys eps)) ∧
    (∀ (s : MState) (n p : ℕ), LinkedRing s → n < s.nv → p < s.nv →
      LinkedRing (Monotones.SplitVerts s n p).1) ∧
    (∀ (s : MState) (vi : ℕ), LinkedRing s →
      LinkedRing (Monotones.ProcessVertType s vi).1) ∧
    (∀ (s : MState) (vi : ℕ), LinkedRing s →
      LinkedRing (Monotones.PlaceStart s vi).1) ∧
    (∀ (s : MState) (w : ℕ), LinkedRing s →
      LinkedRing (Monotones.RemovePair s w)) ∧
    (∀ (s : MState) (e v : ℕ), LinkedRing s →
      LinkedRing (Monotones.UpdateEdge s e v)) ∧
    (∀ s : MState, LinkedRing s → LinkedRing (Monotones.setIndices s)) ∧
    (∀ (s : MState) (i : ℕ) (b : Bool), LinkedRing s →
      LinkedRing (mapV s i (fun w => w.SetProcessed b))) := by
  refine ⟨buildRing_linked, ?_, ?_, ?_, ?_, ?_, ?_, ?_⟩
  · intro s n p hinv hn hp
    obtain ⟨hL, hR, hnv⟩ := splitVerts_maps s n p hn hp
    unfold LinkedRing
    rw [hL, hR, hnv]
    exact splitLR_inv (leftMap s) (rightMap s) s.nv n p hinv hn hp
  · intro s vi hinv
    obtain ⟨hL, hR, hnv⟩ := LR_ProcessVertType s vi
    unfold LinkedRing
    rw [hL, hR, hnv]
    exact hinv
  · intro s vi hinv
    obtain ⟨hL, hR, hnv⟩ := LR_PlaceStart s vi
    unfold LinkedRing
    rw [hL, hR, hnv]
    exact hinv
  · intro s w hinv
    exact hinv
  · intro s e v hinv
    obtain ⟨hL, hR⟩ := LR_UpdateEdge s e v
    unfold LinkedRing
    rw [hL, hR]
    exact hinv
  · intro s hinv
    unfold LinkedRing
    rw [(LR_setIndices s).1, (LR_setIndices s).2, setIndices_nv]
    exact hinv
  · intro s i b hinv
    unfold LinkedRing
    rw [leftMap_setProcessed, rightMap_setProcessed]
    exact hinv

/-- Witness for C9: the ring built from the collinear triangle satisfies the
invariant, and it still holds, on five live vertices, after SplitVerts
duplicates the pair (0, 2). -/
theorem c9_witness :
    LinkedRing
      (Monotones.SplitVerts (Monotones.buildRing collinearTri (1/10)) 0 2).1 :=
  c9_ring_invariant.2.1 (Monotones.buildRing collinearTri (1/10)) 0 2
    (c9_ring_invariant.1 collinearTri (1/10))
    (by with_unfolding_all decide) (by with_unfolding_all decide)

end ManifoldPoly
